import Mathlib

/-!
# Verification of the karaoke melody-scoring pipeline

Shallow embedding, over `ℚ`, of the melody-analysis core of
`scripts/scoring.py`: the circular semitone distance, octave folding,
run-wise Savitzky–Golay smoothing, the fastdtw-based similarity scorer and
the cross-correlation alignment estimator.

Modelling conventions:
* numpy float arrays are modelled as `List ℚ` (exact rational arithmetic in
  place of IEEE floats); the float literal `1.11` is the rational `111/100`.
* `scipy.signal.savgol_filter(seg, w, 2)` (default `mode='interp'`) is
  modelled as the exact least-squares quadratic fit evaluated per frame:
  interior frames use the window centred on the frame, the first and last
  `(w-1)/2` frames use the fit to the first resp. last `w` frames.
* the `fastdtw` package (imported by the source, not part of the repository)
  is modelled from its pure-Python reference implementation (version 0.3.4):
  `__dtw` over an explicit cell window with the first-minimum tie-break of
  Python's `min`, `__reduce_by_half`, `__expand_window`, and the recursive
  `__fastdtw` with `min_time_size = radius + 2`.
* `numpy.fft` based cross-correlation: by the convolution theorem,
  `irfft(rfft(ref, N) * conj(rfft(perf, N)), N)` is the circular
  cross-correlation `cc u = ∑ s, ref[(s+u) % N] * perf[s]` of the two
  signals zero-padded (truncated, if longer than `N`) to length `N`; the
  model computes that sum directly in the time domain.
-/

set_option maxRecDepth 100000

/-- Python's `abs` on rationals, written as the conditional it denotes so
that it evaluates by kernel reduction. -/
def qabs (x : ℚ) : ℚ := if x < 0 then -x else x

/-- Python's binary `min` on rationals (returns the first argument on
ties, like `min(a, b)`). -/
def qmin (a b : ℚ) : ℚ := if a ≤ b then a else b

theorem qabs_eq_abs (x : ℚ) : qabs x = |x| := by
  unfold qabs
  rcases lt_or_ge x 0 with h | h
  · simp [h, abs_of_neg h]
  · simp [not_lt.mpr h, abs_of_nonneg h]

theorem qmin_eq_min (a b : ℚ) : qmin a b = min a b := by
  unfold qmin
  rcases le_or_lt a b with h | h
  · simp [h, min_eq_left h]
  · simp [not_le.mpr h, min_eq_right h.le]

/-- Source `circular_semitone_distance(a, b)`: `diff = abs(a - b);
return min(diff, 12 - diff)`. -/
def circular_semitone_distance (a b : ℚ) : ℚ :=
  qmin (qabs (a - b)) (12 - qabs (a - b))

/-- Python's `%` on reals with a positive modulus: `x % m = x - m*⌊x/m⌋`,
always in `[0, m)` for `m > 0`. -/
def pymod (x m : ℚ) : ℚ :=
  x - m * ⌊x / m⌋

/-- Source `normalize_to_octave`: `np.where(~(midi == 0), ((midi - 60) % 12) + 60, 0)`,
elementwise on the curve. -/
def normalize_to_octave (midi_notes : List ℚ) : List ℚ :=
  midi_notes.map fun n => if n = 0 then 0 else pymod (n - 60) 12 + 60

example : circular_semitone_distance 0 11 = 1 := by with_unfolding_all decide

/-! ## The fastdtw library (pure-Python reference implementation 0.3.4)

`D` is the dynamic-programming table of `__dtw`: a finite map from a cell
`(i, j)` (1-based, as in the source) to `(value, pred_i, pred_j)`, realised
as an association list with most-recently-written entry first (each cell is
written exactly once, so lookup agrees with the Python `dict`).  A missing
entry is the `defaultdict` default `(float('inf'),)`, modelled by `none`. -/

abbrev DtwTable := List ((ℕ × ℕ) × (ℚ × ℕ × ℕ))

/-- Lookup of a cell in the table; `none` is `float('inf')`.  Key equality
is spelled with `Nat.beq` so that concrete instances evaluate quickly. -/
def dtwLookup (D : DtwTable) (c : ℕ × ℕ) : Option (ℚ × ℕ × ℕ) :=
  (D.find? fun e => e.1.1 == c.1 && e.1.2 == c.2).map (·.2)

/-- Comparison `a ≤ b` on `Option ℚ` where `none` plays `+∞`. -/
def optLE : Option ℚ → Option ℚ → Bool
  | none, none => true
  | none, some _ => false
  | some _, none => true
  | some a, some b => a ≤ b

/-- Python's `min(c1, c2, c3, key=value)`: the first candidate among the
minima.  Each candidate is an optional value paired with its predecessor. -/
def min3 (c1 c2 c3 : Option ℚ × ℕ × ℕ) : Option ℚ × ℕ × ℕ :=
  if optLE c1.1 c2.1 && optLE c1.1 c3.1 then c1
  else if optLE c2.1 c3.1 then c2 else c3

/-- One iteration of the `for i, j in window` loop of `__dtw`:
`dt = dist(x[i-1], y[j-1])`, then
`D[i,j] = min((D[i-1,j][0]+dt, i-1, j), (D[i,j-1][0]+dt, i, j-1),
(D[i-1,j-1][0]+dt, i-1, j-1))`.  Cells whose three candidates are all
infinite are not stored (they would hold `inf` and index errors aside
behave like the absent default, which is what lookup already returns). -/
def dtwStep (x y : List ℚ) (D : DtwTable) (c : ℕ × ℕ) : DtwTable :=
  let i := c.1
  let j := c.2
  let dt := circular_semitone_distance (x.getD (i - 1) 0) (y.getD (j - 1) 0)
  let cand := fun (p : ℕ × ℕ) => ((dtwLookup D p).map (fun v => v.1 + dt), p)
  let best := min3 (cand (i - 1, j)) (cand (i, j - 1)) (cand (i - 1, j - 1))
  match best.1 with
  | none => D
  | some v => ((i, j), (v, best.2)) :: D

/-- Traceback loop of `__dtw`: follow predecessors from `(len_x, len_y)`
down to `(0, 0)`, collecting `(i-1, j-1)`; the result is reversed by the
caller.  The fuel `i + j` strictly decreases along stored predecessors, so
`lenX + lenY` suffices; a missing entry (impossible for cells reachable
from a finite final cell) stops the walk. -/
def dtwTraceback (D : DtwTable) : ℕ → ℕ × ℕ → List (ℕ × ℕ)
  | 0, _ => []
  | fuel + 1, (i, j) =>
    if i = 0 ∧ j = 0 then []
    else
      match dtwLookup D (i, j) with
      | none => []
      | some (_, pi, pj) => (i - 1, j - 1) :: dtwTraceback D fuel (pi, pj)

/-- Loop `for i, j in window` of `__dtw`, iterating `dtwStep` over the
cells.  The stored value of the newest entry is re-expressed through
`mkRat` of its numerator and denominator on every iteration — the identity
on `ℚ` (see `dtwRun_eq_foldl`), inserted so that kernel evaluation of
concrete instances is forced at each step instead of building one deep
thunk per cell. -/
def dtwRun (x y : List ℚ) : List (ℕ × ℕ) → DtwTable → DtwTable
  | [], D => D
  | c :: cs, D =>
    match dtwStep x y D c with
    | [] => []
    | (key, (v, pr)) :: rest =>
      match v with
      | ⟨Int.ofNat nn, dd, _, _⟩ =>
        dtwRun x y cs ((key, (mkRat (Int.ofNat nn) dd, pr)) :: rest)
      | ⟨Int.negSucc nn, dd, _, _⟩ =>
        dtwRun x y cs ((key, (mkRat (Int.negSucc nn) dd, pr)) :: rest)

/-- Filling a cell never empties the table: `__dtw` either keeps `D` or
prepends an entry. -/
theorem dtwStep_ne_nil (x y : List ℚ) (D : DtwTable) (c : ℕ × ℕ)
    (hD : D ≠ []) : dtwStep x y D c ≠ [] := by
  unfold dtwStep
  dsimp only
  split
  · exact hD
  · simp

/-- Justification that the strict loop `dtwRun` is exactly the plain left
fold of `dtwStep` over the window cells (given a nonempty table, which
`__dtw` always has thanks to the seed `D[0,0]`). -/
theorem dtwRun_eq_foldl (x y : List ℚ) (cells : List (ℕ × ℕ)) (D : DtwTable)
    (hD : D ≠ []) : dtwRun x y cells D = cells.foldl (dtwStep x y) D := by
  induction cells generalizing D with
  | nil => simp [dtwRun]
  | cons c cs ih =>
    have hstep := dtwStep_ne_nil x y D c hD
    rw [List.foldl_cons, ← ih (dtwStep x y D c) hstep]
    rcases hs : dtwStep x y D c with _ | ⟨⟨key, v, pr⟩, rest⟩
    · exact absurd hs hstep
    · rw [dtwRun, hs]
      rcases v with ⟨nn, dd, h1, h2⟩
      cases nn with
      | ofNat m =>
        exact congrArg (fun q => dtwRun x y cs ((key, (q, pr)) :: rest))
          (Rat.mkRat_self ⟨Int.ofNat m, dd, h1, h2⟩)
      | negSucc m =>
        exact congrArg (fun q => dtwRun x y cs ((key, (q, pr)) :: rest))
          (Rat.mkRat_self ⟨Int.negSucc m, dd, h1, h2⟩)

/-- Source `__dtw(x, y, window, dist)` for an explicit window (already in
0-based cell coordinates, as passed by the callers): shift cells by `+1`,
fill the table in window order from `D[0,0] = (0, 0, 0)`, return
`(D[len_x, len_y][0], path)`. -/
def dtwWindowed (x y : List ℚ) (window : List (ℕ × ℕ)) :
    Option ℚ × List (ℕ × ℕ) :=
  let cells := window.map fun c => (c.1 + 1, c.2 + 1)
  let D := dtwRun x y cells [((0, 0), (0, 0, 0))]
  let dist := (dtwLookup D (x.length, y.length)).map (·.1)
  (dist, (dtwTraceback D (x.length + y.length + 1) (x.length, y.length)).reverse)

/-- Source `dtw(x, y, dist)` = `__dtw` with the full window
`[(i, j) for i in range(len_x) for j in range(len_y)]`. -/
def dtwFull (x y : List ℚ) : Option ℚ × List (ℕ × ℕ) :=
  dtwWindowed x y
    ((List.range x.length).flatMap fun i => (List.range y.length).map fun j => (i, j))

/-- Source `__reduce_by_half`: average consecutive pairs, dropping the odd
last element — `[(x[i] + x[1+i]) / 2 for i in range(0, len(x) - len(x) % 2, 2)]`. -/
def reduceByHalf : List ℚ → List ℚ
  | a :: b :: rest => (a + b) / 2 :: reduceByHalf rest
  | _ => []

/-- Membership in the set `window_` built by `__expand_window` before the
row scan: `window_` consists of the four double-resolution cells of every
cell of `path_`, and `path_` is the path together with the full square of
radius `radius` around each path cell.  Hence `(i, j) ∈ window_` iff
`(i / 2, j / 2)` (floor division) is within Chebyshev distance `radius`
of some path cell. -/
def inExpandedSet (path : List (ℕ × ℕ)) (radius : ℕ) (i j : ℕ) : Bool :=
  path.any fun c =>
    ((i / 2 : ℤ) - c.1).natAbs ≤ radius && ((j / 2 : ℤ) - c.2).natAbs ≤ radius

/-- Inner `for j in range(start_j, len_y)` loop of the `__expand_window`
row scan: collect cells of `window_` from `start_j` on, remember the first
hit in `new_start_j`, and `break` at the first miss after a hit. -/
def scanRow (p : ℕ → Bool) : List ℕ → Option ℕ → List ℕ × Option ℕ
  | [], ns => ([], ns)
  | j :: rest, ns =>
    if p j then
      let ns1 := match ns with | none => some j | some k => some k
      let r := scanRow p rest ns1
      (j :: r.1, r.2)
    else
      match ns with
      | some _ => ([], ns)
      | none => scanRow p rest none

/-- Outer row loop of the `__expand_window` scan, carrying `start_j`.
Should a row produce no window cell, the source would crash on
`range(None, len_y)` in the next iteration; that state is unreachable for
the windows arising here (every row of an expanded path window is
populated), and the model then stops scanning. -/
def scanRows (p : ℕ → ℕ → Bool) (lenY : ℕ) : List ℕ → ℕ → List (ℕ × ℕ)
  | [], _ => []
  | i :: rest, startJ =>
    let r := scanRow (p i) (List.range' startJ (lenY - startJ)) none
    (r.1.map fun j => (i, j)) ++
      match r.2 with
      | none => []
      | some s => scanRows p lenY rest s

/-- Source `__expand_window(path, len_x, len_y, radius)`: the row-major,
first-run-per-row scan of the expanded window set. -/
def expandWindow (path : List (ℕ × ℕ)) (lenX lenY radius : ℕ) : List (ℕ × ℕ) :=
  scanRows (inExpandedSet path radius) lenY (List.range lenX) 0

/-- Source `__fastdtw(x, y, radius, dist)`, with an explicit structural
fuel in place of the Python recursion on ever-halved lists (each recursive
call halves `len x`, so `len x + 1` steps of fuel always suffice and the
fuel-exhausted branch is unreachable; it returns the base case). -/
def fastdtwFuel (radius : ℕ) : ℕ → List ℚ → List ℚ → Option ℚ × List (ℕ × ℕ)
  | 0, x, y => dtwFull x y
  | fuel + 1, x, y =>
    if x.length < radius + 2 ∨ y.length < radius + 2 then dtwFull x y
    else
      let xs := reduceByHalf x
      let ys := reduceByHalf y
      let r := fastdtwFuel radius fuel xs ys
      dtwWindowed x y (expandWindow r.2 x.length y.length radius)

/-- Library entry point `fastdtw(x, y, radius=radius, dist=dist)` as called
by the source with `dist` the circular semitone distance on the scalar
entries of the reshaped column vectors. -/
def fastdtw (radius : ℕ) (x y : List ℚ) : Option ℚ × List (ℕ × ℕ) :=
  fastdtwFuel radius (x.length + 1) x y

example : (fastdtw 10 [60, 66] [60, 66]).1 = some 0 := by with_unfolding_all decide
example : (fastdtw 10 [60, 61, 65, 62, 70] [60, 62, 65, 61, 70]).1 = some 2 := by
  with_unfolding_all decide

/-! ## Similarity scorer (`calculate_curve_similarity`) -/

/-- Python's binary `max` (first argument on ties). -/
def qmax (a b : ℚ) : ℚ := if a < b then b else a

/-- Test `value != 0` used by the masks `curve == 0` (negated). -/
def voiced (a : ℚ) : Bool := !(a == 0)

/-- Numpy boolean-mask extraction of the frames where both curves are
nonzero: the pairs `(curve1[t], curve2[t])` with `valid_mask[t]` true, in
order. -/
def validPairs (c1 c2 : List ℚ) : List (ℚ × ℚ) :=
  (c1.zip c2).filter fun p => voiced p.1 && voiced p.2

/-- Count of nonzero frames (`np.sum(~silence_mask)`). -/
def voicedCount (c : List ℚ) : ℕ := (c.filter voiced).length

/-- Numpy strided slice `xs[::step]` (for `step ≥ 1`). -/
def strided (l : List ℚ) (step : ℕ) : List ℚ :=
  (List.range ((l.length + step - 1) / step)).map fun t => l.getD (t * step) 0

/-- Source lines 259–264: `overlap_fraction = np.sum(both_voiced) /
np.sum(ref_voiced_mask) if np.sum(ref_voiced_mask) > 0 else 1.0`, on the
length-truncated curves. -/
def overlap_fraction (c1 c2 : List ℚ) : ℚ :=
  if 0 < voicedCount c1 then (validPairs c1 c2).length / (voicedCount c1 : ℚ) else 1

/-- Source lines 266–279: the piecewise-linear recalibration sending
`raw ≤ 30` to `0`, `raw ≥ 90` to `100`, and interpolating in between. -/
def scaled_similarity (raw : ℚ) : ℚ :=
  if raw ≤ 30 then 0
  else if 90 ≤ raw then 100
  else 0 + ((raw - 30) / (90 - 30)) * (100 - 0)

/-- Source lines 220–221: truncation of the first curve to the shared
minimum length. -/
def truncTo (a b : List ℚ) : List ℚ := a.take (min a.length b.length)

/-- Source lines 239–243: the `max_points = 1000` downsampling by fixed
striding, where `n` is the valid-point count `len(curve1_clean)` governing
both curves. -/
def downsample (cl : List ℚ) (n : ℕ) : List ℚ :=
  if 1000 < n then strided cl (n / 1000) else cl

/-- The first curve as handed to `fastdtw`: valid frames of the truncated
reference, downsampled. -/
def dtwInput1 (curve1 curve2 : List ℚ) : List ℚ :=
  let pairs := validPairs (truncTo curve1 curve2) (truncTo curve2 curve1)
  downsample (pairs.map (·.1)) pairs.length

/-- The second curve as handed to `fastdtw`: valid frames of the truncated
performance, downsampled. -/
def dtwInput2 (curve1 curve2 : List ℚ) : List ℚ :=
  let pairs := validPairs (truncTo curve1 curve2) (truncTo curve2 curve1)
  downsample (pairs.map (·.2)) pairs.length

/-- Source `calculate_curve_similarity(curve1, curve2)`.  The `fastdtw`
distance is an `Option ℚ`; `none` is the `float('inf')` default of an
unreachable final cell, in which case `raw = max(0, 100*(1 - inf/maxd))`
evaluates to `0` (the try/except around the call never fires in the
model). -/
def calculate_curve_similarity (curve1 curve2 : List ℚ) : ℚ :=
  let c1 := truncTo curve1 curve2
  let c2 := truncTo curve2 curve1
  let pairs := validPairs c1 c2
  if pairs.isEmpty then 0
  else
    if (pairs.map (·.1)).length < 2 ∨ (pairs.map (·.2)).length < 2 then 0
    else
      let clean1d := dtwInput1 curve1 curve2
      let clean2d := dtwInput2 curve1 curve2
      match (fastdtw 10 clean1d clean2d).1 with
      | none => 0
      | some d =>
        let maxDistance : ℚ := 6 * clean1d.length
        let rawSimilarity := qmax 0 (100 * (1 - d / maxDistance))
        let weightedSimilarity := scaled_similarity rawSimilarity * overlap_fraction c1 c2
        weightedSimilarity * (111 / 100)

/-! ## Alignment estimator (`estimate_shift_via_xcorr`) -/

/-- Loop `N = 1; while N < target: N *= 2`, with structural fuel (the
doubling reaches any `target ≥ 1` in `target` steps, so the fuel is never
exhausted for the fuel chosen by `padLength`). -/
def padLenGo : ℕ → ℕ → ℕ → ℕ
  | 0, _, acc => acc
  | fuel + 1, target, acc => if acc < target then padLenGo fuel target (2 * acc) else acc

/-- Source lines 297–299: the power-of-two FFT length, the least power of
two that is `≥ 2 * n` (and `1` for `n = 0`). -/
def padLength (n : ℕ) : ℕ := padLenGo (2 * n + 1) (2 * n) 1

/-- `numpy.fft.rfft(x, N)` input handling: truncate or zero-pad `x` to
length `N`. -/
def rfftPadTrunc (x : List ℚ) (N : ℕ) : List ℚ :=
  x.take N ++ List.replicate (N - x.length) 0

/-- Circular cross-correlation of two length-`N` signals:
`cc[u] = ∑ s, ref[(s+u) % N] * perf[s]`.  By the convolution theorem this
is exactly `irfft(rfft(ref, N) * conj(rfft(perf, N)), N)` as computed in
source lines 301–303. -/
def crossCorr (refP perfP : List ℚ) (N : ℕ) : List ℚ :=
  (List.range N).map fun u =>
    ((List.range N).map fun s => refP.getD ((s + u) % N) 0 * perfP.getD s 0).sum

/-- Helper for `np.argmax`: fold tracking the first index attaining the
running maximum. -/
def argmaxGo : List ℚ → ℕ → ℕ → ℚ → ℕ
  | [], _, best, _ => best
  | a :: rest, idx, best, bestVal =>
    if bestVal < a then argmaxGo rest (idx + 1) idx a
    else argmaxGo rest (idx + 1) best bestVal

/-- `np.argmax`: index of the first occurrence of the maximum (`0` on the
empty list, where numpy raises instead; unreachable here). -/
def argmaxIdx : List ℚ → ℕ
  | [] => 0
  | a :: rest => argmaxGo rest 1 0 a

/-- Source `estimate_shift_via_xcorr(ref_curve, perf_curve)`.  The
rotation `np.concatenate((cc[-(n-1):], cc[:n]))` takes the last `n-1`
entries followed by the first `n`; for `n = 1` the Python slice `cc[-0:]`
is the whole array, and for `n = 0` the slice `cc[-(-1):]` is `cc[1:]`
and `np.argmax` would raise on the empty result (modelled as index 0). -/
def estimate_shift_via_xcorr (ref_curve perf_curve : List ℚ) : ℤ :=
  let n := ref_curve.length
  let N := padLength n
  let cc := crossCorr (rfftPadTrunc ref_curve N) (rfftPadTrunc perf_curve N) N
  let rot :=
    if 2 ≤ n then cc.drop (N - (n - 1)) ++ cc.take n
    else if n = 1 then cc ++ cc.take 1
    else cc.drop 1
  (argmaxIdx rot : ℤ) - ((n : ℤ) - 1)

/-- Modelled from the spec (§4.4): "zero-pad both curves to a common
power-of-two length ≥ 2× the reference length; … form the cross-power
spectrum …; inverse-transform …; rotate the sequence so zero-lag is
centered; the estimated shift is the lag index of the maximum correlation
value minus the reference length minus one."  The common length is the
least power of two accommodating both curves (so both really are
zero-padded, never truncated), the rotated sequence is the last `n-1`
correlation entries followed by the first `n`, and the cross-correlation
is the same convolution-theorem computation as in the source model. -/
def alignmentShiftSpec (ref_curve perf_curve : List ℚ) : ℤ :=
  let n := ref_curve.length
  let N := padLenGo (2 * max (2 * n) perf_curve.length + 1) (max (2 * n) perf_curve.length) 1
  let cc := crossCorr (rfftPadTrunc ref_curve N) (rfftPadTrunc perf_curve N) N
  let rot := cc.drop (N - (n - 1)) ++ cc.take n
  (argmaxIdx rot : ℤ) - ((n : ℤ) - 1)

/-! ## Pitch curve processor: smoothing (`get_smooth_pitch_curve`)

`scipy.signal.savgol_filter(seg, w, 2)` with the default `mode='interp'`
computes, for each frame, the value at that frame of the least-squares
quadratic fit to a length-`w` window: the window centred on the frame in
the interior, and the first (resp. last) `w` samples for the first
(resp. last) `(w-1)/2` frames.  `quadFitEval ys t` is that least-squares
quadratic through the points `(0, ys[0]), …, (w-1, ys[w-1])` evaluated at
`t`, solved exactly by Cramer's rule on the normal equations (scipy
computes the same quantities in floating point). -/

/-- Least-squares degree-2 polynomial fit to `(i, ys[i])`, evaluated at
`t`. -/
def quadFitEval (ys : List ℚ) (t : ℚ) : ℚ :=
  let e := ys.enum
  let s0 : ℚ := ys.length
  let s1 := (e.map fun p => ((p.1 : ℚ))).sum
  let s2 := (e.map fun p => ((p.1 : ℚ)) * p.1).sum
  let s3 := (e.map fun p => ((p.1 : ℚ)) * p.1 * p.1).sum
  let s4 := (e.map fun p => ((p.1 : ℚ)) * p.1 * p.1 * p.1).sum
  let t0 := (e.map fun p => p.2).sum
  let t1 := (e.map fun p => ((p.1 : ℚ)) * p.2).sum
  let t2 := (e.map fun p => ((p.1 : ℚ)) * (p.1 : ℚ) * p.2).sum
  let det := s0 * (s2 * s4 - s3 * s3) - s1 * (s1 * s4 - s3 * s2) + s2 * (s1 * s3 - s2 * s2)
  let da := t0 * (s2 * s4 - s3 * s3) - s1 * (t1 * s4 - s3 * t2) + s2 * (t1 * s3 - s2 * t2)
  let db := s0 * (t1 * s4 - t2 * s3) - t0 * (s1 * s4 - s3 * s2) + s2 * (s1 * t2 - t1 * s2)
  let dc := s0 * (s2 * t2 - s3 * t1) - s1 * (s1 * t2 - t1 * s2) + t0 * (s1 * s3 - s2 * s2)
  (da / det) + (db / det) * t + (dc / det) * t * t

/-- `scipy.signal.savgol_filter(ys, w, 2)` (default `mode='interp'`),
for odd `3 ≤ w ≤ ys.length`. -/
def savgol_filter (ys : List ℚ) (w : ℕ) : List ℚ :=
  let L := ys.length
  let h := (w - 1) / 2
  (List.range L).map fun i =>
    if i < h then quadFitEval (ys.take w) i
    else if L - h ≤ i then quadFitEval (ys.drop (L - w)) ((i : ℚ) - ((L : ℚ) - (w : ℚ)))
    else quadFitEval ((ys.drop (i - h)).take w) h

/-- Partition of a curve into maximal runs of equal voicedness: the model
of `np.split(y, np.where(np.diff(valid_indices))[0] + 1)` (split exactly
between adjacent frames whose voiced flags differ). -/
def splitRuns : List ℚ → List (List ℚ)
  | [] => []
  | a :: rest =>
    match splitRuns rest with
    | [] => [[a]]
    | s :: ss =>
      match s with
      | [] => [a] :: s :: ss
      | b :: _ => if voiced a = voiced b then (a :: s) :: ss else [a] :: s :: ss

/-- Body of the `for seg, idx in zip(segments, segment_indices)` loop of
`get_smooth_pitch_curve` (source lines 202–214): voiced segments of at
least 5 frames get a Savitzky–Golay filter of window `min(5, len-2)`
forced odd when that is at least 3 and are passed through otherwise, and
silent segments keep the zeros `smooth_curve` was initialised with. -/
def smoothSegment (seg : List ℚ) : List ℚ :=
  if seg.any voiced then
    if 5 ≤ seg.length then
      let w0 := min 5 (seg.length - 2)
      let w := if w0 % 2 = 0 then w0 - 1 else w0
      if 3 ≤ w then savgol_filter seg w else seg
    else seg
  else List.replicate seg.length 0

/-- Source `get_smooth_pitch_curve(midi_notes)`: split at voicedness
changes, smooth each segment, reassemble (assignment `smooth_curve[idx] =
…` over the split index blocks is concatenation in order); an entirely
silent curve short-circuits to zeros. -/
def get_smooth_pitch_curve (midi_notes : List ℚ) : List ℚ :=
  if midi_notes.any voiced then ((splitRuns midi_notes).map smoothSegment).flatten
  else List.replicate midi_notes.length 0

/-! ## Scoring orchestrator (`calculate_score`)

Pitch extraction (librosa) and `librosa.hz_to_midi` are external
collaborators: the model takes the extracted performance `f0` series and
the frequency-to-MIDI conversion function as parameters. -/

/-- Source `convert_to_midi`: `np.where(f0 > 0, librosa.hz_to_midi(f0), 0)`. -/
def convert_to_midi (hzToMidi : ℚ → ℚ) (f0 : List ℚ) : List ℚ :=
  f0.map fun f => if 0 < f then hzToMidi f else 0

/-- Source lines 387–391: `np.roll(perf_midi_smooth, shift_est)` followed
by zeroing of the wrapped-in frames (`[:shift] = 0` for positive,
`[shift:] = 0` for negative shifts). -/
def applyShift (perf : List ℚ) (k : ℤ) : List ℚ :=
  let n := perf.length
  (List.range n).map fun (i : ℕ) =>
    if (0 < k ∧ (i : ℤ) < k) ∨ (k < 0 ∧ (n : ℤ) + k ≤ (i : ℤ)) then 0
    else perf.getD (((i : ℤ) - k).emod (n : ℤ)).toNat 0

/-- Source `calculate_score` from the point where the extracted
performance pitch series `perf_f0` is in hand (lines 372–398): an
entirely zero series short-circuits to the zero score; otherwise convert
to MIDI, fold, smooth, estimate and apply the alignment shift against the
cached reference smoothed curve, and score the aligned curves.  The
result is `(melody_score, final_score)`. -/
def calculate_score (hzToMidi : ℚ → ℚ) (refMidiSmooth : List ℚ)
    (perfF0 : List ℚ) : ℚ × ℚ :=
  if perfF0.all fun a => a == 0 then (0, 0)
  else
    let perfMidi := convert_to_midi hzToMidi perfF0
    let perfNorm := normalize_to_octave perfMidi
    let perfSmooth := get_smooth_pitch_curve perfNorm
    let shift := estimate_shift_via_xcorr refMidiSmooth perfSmooth
    let shifted := applyShift perfSmooth shift
    let s := calculate_curve_similarity refMidiSmooth shifted
    (s, s)


/-- A 56-frame folded curve used as a concrete similarity-scorer input: 34
frames of MIDI 63 followed by 22 frames alternating between 57 and 69 (all
voiced, all values in [57, 69]). -/
def zigzag56 : List ℚ :=
  List.replicate 34 63 ++ (List.range 22).map fun i => if i % 2 = 0 then 57 else 69

/-! ## Basic lemmas -/

theorem circular_semitone_distance_comm (a b : ℚ) :
    circular_semitone_distance a b = circular_semitone_distance b a := by
  unfold circular_semitone_distance
  rw [qabs_eq_abs, qabs_eq_abs, abs_sub_comm]

theorem circular_semitone_distance_self (a : ℚ) :
    circular_semitone_distance a a = 0 := by
  unfold circular_semitone_distance qmin
  simp [qabs_eq_abs]

theorem pymod_nonneg (x : ℚ) : 0 ≤ pymod x 12 := by
  unfold pymod
  have h1 : ((⌊x / 12⌋ : ℚ)) ≤ x / 12 := Int.floor_le _
  linarith

theorem pymod_lt (x : ℚ) : pymod x 12 < 12 := by
  unfold pymod
  have h2 : x / 12 < (⌊x / 12⌋ : ℚ) + 1 := Int.lt_floor_add_one _
  linarith

/-- C7: the circular semitone distance is symmetric, zero on equal
arguments, and takes the values 6 at `(0, 6)` (the maximum) and 1 at
`(0, 11)`. -/
theorem circular_distance_properties :
    (∀ a b : ℚ, circular_semitone_distance a b = circular_semitone_distance b a) ∧
    (∀ a : ℚ, circular_semitone_distance a a = 0) ∧
    circular_semitone_distance 0 6 = 6 ∧ circular_semitone_distance 0 11 = 1 :=
  ⟨circular_semitone_distance_comm, circular_semitone_distance_self,
    by with_unfolding_all decide, by with_unfolding_all decide⟩

/-- C6: `normalize_to_octave` sends every zero entry to exactly 0 and
every nonzero entry `n` to `((n - 60) mod 12) + 60`, which lies in
`[60, 72)`. -/
theorem normalize_to_octave_spec (xs : List ℚ) (i : ℕ) (hi : i < xs.length) :
    (xs[i] = 0 → (normalize_to_octave xs).getD i 0 = 0) ∧
    (xs[i] ≠ 0 →
      (normalize_to_octave xs).getD i 0 = pymod (xs[i] - 60) 12 + 60 ∧
      60 ≤ (normalize_to_octave xs).getD i 0 ∧
      (normalize_to_octave xs).getD i 0 < 72) := by
  have hval : (normalize_to_octave xs).getD i 0 =
      if xs[i] = 0 then (0 : ℚ) else pymod (xs[i] - 60) 12 + 60 := by
    unfold normalize_to_octave
    rw [List.getD_eq_getElem?_getD, List.getElem?_map, List.getElem?_eq_getElem hi]
    rfl
  constructor
  · intro h0
    rw [hval, if_pos h0]
  · intro hne
    rw [hval, if_neg hne]
    refine ⟨rfl, ?_, ?_⟩
    · have := pymod_nonneg (xs[i] - 60)
      linarith
    · have := pymod_lt (xs[i] - 60)
      linarith

theorem normalize_to_octave_spec_witness :
    (normalize_to_octave [75] : List ℚ).getD 0 0 = pymod ((75 : ℚ) - 60) 12 + 60 ∧
    60 ≤ (normalize_to_octave [75] : List ℚ).getD 0 0 ∧
    (normalize_to_octave [75] : List ℚ).getD 0 0 < 72 :=
  (normalize_to_octave_spec [75] 0 (by norm_num)).2 (by norm_num)

/-- C9: a performance whose extracted pitch series is entirely zero
short-circuits to the all-zero score result (alignment and DTW are never
reached: the zero branch is taken before them). -/
theorem calculate_score_all_zero (hzToMidi : ℚ → ℚ) (ref : List ℚ)
    (f0 : List ℚ) (h : ∀ x ∈ f0, x = 0) :
    calculate_score hzToMidi ref f0 = (0, 0) := by
  unfold calculate_score
  have hall : (f0.all fun a => a == 0) = true := by
    rw [List.all_eq_true]
    intro x hx
    exact beq_iff_eq.mpr (h x hx)
  simp [hall]

theorem calculate_score_all_zero_witness :
    calculate_score (fun q => q) [61, 65] [0, 0, 0] = (0, 0) :=
  calculate_score_all_zero (fun q => q) [61, 65] [0, 0, 0] (by
    with_unfolding_all decide)

theorem voicedCount_pos_of_validPairs (c1 c2 : List ℚ)
    (h : validPairs c1 c2 ≠ []) : 0 < voicedCount c1 := by
  obtain ⟨p, hp⟩ := List.exists_mem_of_ne_nil _ h
  unfold validPairs at hp
  rw [List.mem_filter] at hp
  obtain ⟨hzip, hpred⟩ := hp
  have h1 : p.1 ∈ c1 := by
    rcases p with ⟨a, b⟩
    exact (List.of_mem_zip hzip).1
  have hv : voiced p.1 = true := (Bool.and_eq_true _ _ |>.mp hpred).1
  unfold voicedCount
  have : p.1 ∈ c1.filter voiced := List.mem_filter.mpr ⟨h1, hv⟩
  exact List.length_pos.mpr (List.ne_nil_of_mem this)

theorem validPairs_length_le (c1 c2 : List ℚ) :
    (validPairs c1 c2).length ≤ voicedCount c1 := by
  induction c1 generalizing c2 with
  | nil => simp [validPairs, voicedCount]
  | cons a t ih =>
    cases c2 with
    | nil => simp [validPairs, voicedCount]
    | cons b t2 =>
      unfold validPairs voicedCount
      rw [List.zip_cons_cons, List.filter_cons, List.filter_cons]
      cases hva : voiced a with
      | false =>
        simpa [hva] using ih t2
      | true =>
        cases hvb : voiced b with
        | false =>
          simp only [hva, hvb, Bool.and_false, Bool.true_and, if_neg, Bool.false_eq_true,
            not_false_eq_true, if_true, List.length_cons]
          exact Nat.le_succ_of_le (ih t2)
        | true =>
          simpa [hva, hvb] using ih t2

/-- C10: once the valid-mask guard has passed (some frame is voiced in
both curves), the reference has at least one voiced frame, so the overlap
fraction really is the quotient of the two voiced counts (the `else 1.0`
fallback is unreachable) and lies in `(0, 1]`. -/
theorem overlap_fraction_guard (c1 c2 : List ℚ) (h : validPairs c1 c2 ≠ []) :
    0 < voicedCount c1 ∧
    overlap_fraction c1 c2 = ((validPairs c1 c2).length : ℚ) / (voicedCount c1 : ℚ) ∧
    0 < overlap_fraction c1 c2 ∧ overlap_fraction c1 c2 ≤ 1 := by
  have hpos := voicedCount_pos_of_validPairs c1 c2 h
  have hof : overlap_fraction c1 c2 =
      ((validPairs c1 c2).length : ℚ) / (voicedCount c1 : ℚ) := by
    unfold overlap_fraction
    rw [if_pos hpos]
  refine ⟨hpos, hof, ?_, ?_⟩
  · rw [hof]
    apply div_pos
    · exact_mod_cast List.length_pos.mpr h
    · exact_mod_cast hpos
  · rw [hof]
    rw [div_le_one (by exact_mod_cast hpos)]
    exact_mod_cast validPairs_length_le c1 c2

theorem overlap_fraction_guard_witness :
    0 < voicedCount [61, 0] ∧
    overlap_fraction [61, 0] [61, 61] =
      ((validPairs [61, 0] [61, 61]).length : ℚ) / (voicedCount [61, 0] : ℚ) ∧
    0 < overlap_fraction [61, 0] [61, 61] ∧ overlap_fraction [61, 0] [61, 61] ≤ 1 :=
  overlap_fraction_guard [61, 0] [61, 61] (by with_unfolding_all decide)

/-- C1: whenever both guards pass, the returned score is exactly the
recalibrated similarity times the overlap fraction times the fixed factor
`1.11`, with no clamping afterwards; and the returned score exceeds 100 on
some inputs (identical two-note curves give 111). -/
theorem final_score_formula :
    (∀ curve1 curve2 : List ℚ, ∀ d : ℚ,
      2 ≤ (validPairs (truncTo curve1 curve2) (truncTo curve2 curve1)).length →
      (fastdtw 10 (dtwInput1 curve1 curve2) (dtwInput2 curve1 curve2)).1 = some d →
      calculate_curve_similarity curve1 curve2 =
        scaled_similarity
            (qmax 0 (100 * (1 - d / (6 * ((dtwInput1 curve1 curve2).length : ℚ))))) *
          overlap_fraction (truncTo curve1 curve2) (truncTo curve2 curve1) * (111 / 100)) ∧
    100 < calculate_curve_similarity [61, 65] [61, 65] := by
  constructor
  · intro curve1 curve2 d h2 hd
    unfold calculate_curve_similarity
    have hne : (validPairs (truncTo curve1 curve2) (truncTo curve2 curve1)).isEmpty = false := by
      rw [List.isEmpty_eq_false]
      intro hnil
      rw [hnil] at h2
      simp at h2
    rw [if_neg (by simp [hne]), if_neg (by simp [List.length_map]; omega)]
    dsimp only
    rw [hd]
  · with_unfolding_all decide

theorem final_score_formula_witness :
    2 ≤ (validPairs (truncTo [61, 65, 0] [61, 65, 9]) (truncTo [61, 65, 9] [61, 65, 0])).length ∧
    (fastdtw 10 (dtwInput1 [61, 65, 0] [61, 65, 9]) (dtwInput2 [61, 65, 0] [61, 65, 9])).1 =
      some 0 ∧
    calculate_curve_similarity [61, 65, 0] [61, 65, 9] =
      scaled_similarity
          (qmax 0 (100 * (1 - 0 / (6 * ((dtwInput1 [61, 65, 0] [61, 65, 9]).length : ℚ))))) *
        overlap_fraction (truncTo [61, 65, 0] [61, 65, 9]) (truncTo [61, 65, 9] [61, 65, 0]) *
        (111 / 100) :=
  ⟨by with_unfolding_all decide, by with_unfolding_all decide,
    final_score_formula.1 [61, 65, 0] [61, 65, 9] 0 (by with_unfolding_all decide)
      (by with_unfolding_all decide)⟩

/-! ## C2: the alignment estimator versus its specification -/

theorem padLenGo_of_ge (fuel t acc : ℕ) (h : ¬ acc < t) :
    padLenGo fuel t acc = acc := by
  cases fuel with
  | zero => rfl
  | succ f => unfold padLenGo; rw [if_neg h]

theorem padLenGo_pow2 (fuel : ℕ) : ∀ t acc : ℕ, (∃ i, acc = 2 ^ i) →
    ∃ j, padLenGo fuel t acc = 2 ^ j := by
  induction fuel with
  | zero => intro t acc h; exact h
  | succ f ih =>
    intro t acc h
    unfold padLenGo
    split
    · obtain ⟨i, hi⟩ := h
      exact ih t (2 * acc) ⟨i + 1, by rw [hi, pow_succ]; ring⟩
    · exact h

theorem padLenGo_ge_target (fuel : ℕ) : ∀ t acc : ℕ, 0 < acc →
    t ≤ acc * 2 ^ fuel → t ≤ padLenGo fuel t acc := by
  induction fuel with
  | zero => intro t acc _ h; simpa using h
  | succ f ih =>
    intro t acc hpos h
    unfold padLenGo
    split
    · refine ih t (2 * acc) (by omega) ?_
      calc t ≤ acc * 2 ^ (f + 1) := h
        _ = 2 * acc * 2 ^ f := by ring
    · omega

theorem padLenGo_min (fuel : ℕ) : ∀ t acc P i : ℕ, 0 < acc → P = acc * 2 ^ i →
    t ≤ P → padLenGo fuel t acc ≤ P := by
  induction fuel with
  | zero =>
    intro t acc P i hpos hP ht
    have : acc ≤ P := by rw [hP]; exact Nat.le_mul_of_pos_right acc (Nat.pos_pow_of_pos i (by omega))
    simpa [padLenGo] using this
  | succ f ih =>
    intro t acc P i hpos hP ht
    unfold padLenGo
    split
    · rename_i hlt
      have hi : 0 < i := by
        by_contra h0
        have : i = 0 := by omega
        rw [this, pow_zero, Nat.mul_one] at hP
        omega
      obtain ⟨i2, hi2⟩ : ∃ i2, i = i2 + 1 := ⟨i - 1, by omega⟩
      refine ih t (2 * acc) P i2 (by omega) ?_ ht
      rw [hP, hi2, pow_succ]
      ring
    · rw [hP]
      exact Nat.le_mul_of_pos_right acc (Nat.pos_pow_of_pos i (by omega))

theorem le_padLength (n : ℕ) : 2 * n ≤ padLength n := by
  unfold padLength
  apply padLenGo_ge_target _ _ _ (by omega)
  have h1 : 2 * n < 2 ^ (2 * n) := Nat.lt_two_pow (2 * n)
  have h2 : (2 : ℕ) ^ (2 * n) ≤ 2 ^ (2 * (2 * n) + 1) :=
    Nat.pow_le_pow_right (by omega) (by omega)
  omega

theorem padLength_pow2 (n : ℕ) : ∃ j, padLength n = 2 ^ j :=
  padLenGo_pow2 _ _ _ ⟨0, rfl⟩

theorem padLen_eq_spec (n m : ℕ) (hm : m ≤ padLength n) :
    padLenGo (2 * max (2 * n) m + 1) (max (2 * n) m) 1 = padLength n := by
  obtain ⟨i, hA⟩ := padLength_pow2 n
  have hTA : max (2 * n) m ≤ padLength n := max_le (le_padLength n) hm
  have hBA : padLenGo (2 * max (2 * n) m + 1) (max (2 * n) m) 1 ≤ padLength n :=
    padLenGo_min _ _ _ _ i (by omega) (by simpa using hA) hTA
  obtain ⟨j, hB⟩ := padLenGo_pow2 (2 * max (2 * n) m + 1) (max (2 * n) m) 1 ⟨0, rfl⟩
  have hTB : max (2 * n) m ≤ padLenGo (2 * max (2 * n) m + 1) (max (2 * n) m) 1 := by
    apply padLenGo_ge_target _ _ _ (by omega)
    have h1 : max (2 * n) m < 2 ^ max (2 * n) m := Nat.lt_two_pow _
    have h2 : (2 : ℕ) ^ max (2 * n) m ≤ 2 ^ (2 * max (2 * n) m + 1) :=
      Nat.pow_le_pow_right (by omega) (by omega)
    omega
  have hAB : padLength n ≤ padLenGo (2 * max (2 * n) m + 1) (max (2 * n) m) 1 := by
    unfold padLength
    exact padLenGo_min _ _ _ _ j (by omega) (by simpa using hB) (le_trans (le_max_left _ _) hTB)
  omega

/-- C2 (counterexample): for a performance longer than the power-of-two
window derived from the reference, the source truncates the performance
(`rfft(perf, N)` drops samples beyond `N`), whereas the specified
algorithm zero-pads both curves to a common length; the two computations
return different shifts on this input. -/
theorem estimate_shift_truncation_counterexample :
    estimate_shift_via_xcorr [9, 1] [1, 0, 0, 9, 0] = 1 ∧
    alignmentShiftSpec [9, 1] [1, 0, 0, 9, 0] = 0 ∧ (1 : ℤ) ≠ 0 :=
  ⟨by with_unfolding_all decide, by with_unfolding_all decide, by decide⟩

/-- C2 (amended): the estimator implements the specified algorithm
(zero-pad to the common power-of-two length ≥ 2× the reference length,
cross-correlate via the spectrum product, rotate to centre zero lag, and
return the argmax index minus the reference length minus one) whenever the
reference has at least 2 frames and the performance is no longer than the
padded length, so that no truncation happens. -/
theorem estimate_shift_matches_spec (ref_curve perf_curve : List ℚ)
    (h2 : 2 ≤ ref_curve.length)
    (hlen : perf_curve.length ≤ padLength ref_curve.length) :
    estimate_shift_via_xcorr ref_curve perf_curve =
      alignmentShiftSpec ref_curve perf_curve := by
  unfold estimate_shift_via_xcorr alignmentShiftSpec
  dsimp only
  rw [padLen_eq_spec ref_curve.length perf_curve.length hlen]
  rw [if_pos h2]

theorem estimate_shift_matches_spec_witness :
    2 ≤ ([9, 1] : List ℚ).length ∧
    ([1, 0, 9] : List ℚ).length ≤ padLength ([9, 1] : List ℚ).length ∧
    estimate_shift_via_xcorr [9, 1] [1, 0, 9] = alignmentShiftSpec [9, 1] [1, 0, 9] :=
  ⟨by decide, by with_unfolding_all decide,
    estimate_shift_matches_spec [9, 1] [1, 0, 9] (by decide)
      (by with_unfolding_all decide)⟩

/-! ## C8: alignment round-trip -/

/-- Modelled from the spec (§8): the "synthetically shifted copy" of a
curve for the round-trip test.  With the sign convention of the
orchestrator (positive shift = performer early, undone by `np.roll(perf,
shift)`), frame `s` of the copy holds `curve[s + k]` when that frame
exists and silence `0` otherwise. -/
def shiftedCopy (c : List ℚ) (k : ℤ) : List ℚ :=
  (List.range c.length).map fun (s : ℕ) =>
    if 0 ≤ (s : ℤ) + k ∧ (s : ℤ) + k < (c.length : ℤ) then c.getD ((s : ℤ) + k).toNat 0
    else 0

/-- A single-impulse curve: value `v` at frame `p`, silence elsewhere. -/
def impulse (n p : ℕ) (v : ℚ) : List ℚ :=
  (List.range n).map fun i => if i = p then v else 0

/-- C8 (counterexample): on the constant curve `[5, 5]` with `k = 1` the
estimator does not recover the shift: it returns `0` for the
advanced-by-one copy `[5, 0]` (and, for the record, `-1` for the
delayed-by-one copy `[0, 5]` and `0` for the circularly rolled copy,
which equals the curve itself) — in every convention the result differs
from `k = 1`. -/
theorem alignment_roundtrip_counterexample :
    shiftedCopy [5, 5] 1 = [5, 0] ∧
    estimate_shift_via_xcorr [5, 5] [5, 0] = 0 ∧
    estimate_shift_via_xcorr [5, 5] [0, 5] = -1 ∧
    estimate_shift_via_xcorr [5, 5] [5, 5] = 0 ∧
    ((0 : ℤ) ≠ 1 ∧ (-1 : ℤ) ≠ 1) :=
  ⟨by with_unfolding_all decide, by with_unfolding_all decide,
    by with_unfolding_all decide, by with_unfolding_all decide, by decide, by decide⟩

theorem getD_range_map (f : ℕ → ℚ) (N t : ℕ) (h : t < N) :
    ((List.range N).map f).getD t 0 = f t := by
  rw [List.getD_eq_getElem?_getD, List.getElem?_map, List.getElem?_range h]
  rfl

theorem impulse_getD (n p : ℕ) (v : ℚ) (t : ℕ) (h : t < n) :
    (impulse n p v).getD t 0 = if t = p then v else 0 := by
  unfold impulse
  exact getD_range_map _ n t h

theorem impulse_length (n p : ℕ) (v : ℚ) : (impulse n p v).length = n := by
  simp [impulse]

theorem list_eq_of_getD {l1 l2 : List ℚ} (hlen : l1.length = l2.length)
    (h : ∀ t, t < l1.length → l1.getD t 0 = l2.getD t 0) : l1 = l2 := by
  apply List.ext_getElem hlen
  intro i h1 h2
  have hi := h i h1
  rwa [List.getD_eq_getElem?_getD, List.getD_eq_getElem?_getD,
    List.getElem?_eq_getElem h1, List.getElem?_eq_getElem h2] at hi

theorem shiftedCopy_length (c : List ℚ) (k : ℤ) :
    (shiftedCopy c k).length = c.length := by
  simp [shiftedCopy]

theorem shiftedCopy_getD (c : List ℚ) (k : ℤ) (t : ℕ) (ht : t < c.length) :
    (shiftedCopy c k).getD t 0 =
      if 0 ≤ (t : ℤ) + k ∧ (t : ℤ) + k < (c.length : ℤ) then
        c.getD ((t : ℤ) + k).toNat 0
      else 0 := by
  unfold shiftedCopy
  exact getD_range_map _ _ _ ht

theorem shiftedCopy_impulse (n p : ℕ) (v : ℚ) (k : ℤ) (hp : p < n)
    (h0 : 0 ≤ (p : ℤ) - k) (h1 : (p : ℤ) - k < n) :
    shiftedCopy (impulse n p v) k = impulse n ((p : ℤ) - k).toNat v := by
  apply list_eq_of_getD
  · rw [shiftedCopy_length, impulse_length, impulse_length]
  · intro t ht
    rw [shiftedCopy_length, impulse_length] at ht
    rw [shiftedCopy_getD _ _ _ (by rw [impulse_length]; omega)]
    rw [impulse_length, impulse_getD n _ v t ht]
    by_cases hin : 0 ≤ (t : ℤ) + k ∧ (t : ℤ) + k < (n : ℤ)
    · rw [if_pos hin]
      rw [impulse_getD n p v _ (by omega)]
      by_cases hsp : t = ((p : ℤ) - k).toNat
      · rw [if_pos (by omega), if_pos hsp]
      · rw [if_neg (by omega), if_neg hsp]
    · rw [if_neg hin, if_neg (by omega)]

theorem rfftPadTrunc_impulse_getD (n p N : ℕ) (v : ℚ) (hp : p < n) (hn : n ≤ N)
    (t : ℕ) (ht : t < N) :
    (rfftPadTrunc (impulse n p v) N).getD t 0 = if t = p then v else 0 := by
  unfold rfftPadTrunc
  rw [impulse_length]
  have htake : (impulse n p v).take N = impulse n p v :=
    List.take_of_length_le (by rw [impulse_length]; omega)
  rw [htake]
  by_cases htn : t < n
  · rw [List.getD_append _ _ _ _ (by rw [impulse_length]; omega)]
    exact impulse_getD n p v t htn
  · rw [List.getD_eq_getElem?_getD, List.getElem?_append_right (by rw [impulse_length]; omega)]
    rw [impulse_length]
    rw [List.getElem?_replicate]
    rw [if_pos (by omega)]
    rw [if_neg (by omega)]
    rfl

theorem sum_map_range_single (N j : ℕ) (f : ℕ → ℚ) (hj : j < N)
    (h0 : ∀ s, s < N → s ≠ j → f s = 0) : ((List.range N).map f).sum = f j := by
  induction N with
  | zero => omega
  | succ M ih =>
    rw [List.range_succ, List.map_append, List.sum_append]
    by_cases hjM : j = M
    · have : ((List.range M).map f).sum = 0 := by
        apply List.sum_eq_zero
        intro x hx
        rw [List.mem_map] at hx
        obtain ⟨s, hs, rfl⟩ := hx
        rw [List.mem_range] at hs
        exact h0 s (by omega) (by omega)
      simp [this, hjM]
    · have hj2 : j < M := by omega
      rw [ih hj2 (fun s hs hne => h0 s (by omega) hne)]
      have : f M = 0 := h0 M (by omega) (by omega)
      simp [this]

theorem argmaxGo_no_improve (rest : List ℚ) : ∀ (idx best : ℕ) (bv : ℚ),
    (∀ a ∈ rest, a ≤ bv) → argmaxGo rest idx best bv = best := by
  induction rest with
  | nil => intro idx best bv _; rfl
  | cons a rest ih =>
    intro idx best bv h
    unfold argmaxGo
    rw [if_neg (not_lt.mpr (h a (List.mem_cons_self a rest)))]
    exact ih (idx + 1) best bv fun x hx => h x (List.mem_cons_of_mem a hx)

theorem argmaxGo_spike (rest : List ℚ) : ∀ (r idx best : ℕ) (bv : ℚ),
    r < rest.length → bv < rest.getD r 0 →
    (∀ i, i < rest.length → i ≠ r → rest.getD i 0 < rest.getD r 0) →
    argmaxGo rest idx best bv = idx + r := by
  induction rest with
  | nil => intro r _ _ _ hr; simp at hr
  | cons a rest ih =>
    intro r idx best bv hr hbv hmax
    cases r with
    | zero =>
      rw [List.getD_cons_zero] at hbv
      have hle : ∀ x ∈ rest, x ≤ a := by
        intro x hx
        obtain ⟨i, hi, rfl⟩ := List.mem_iff_getElem.mp hx
        have := hmax (i + 1) (by simpa using hi) (by omega)
        rw [List.getD_cons_succ, List.getD_cons_zero] at this
        rw [List.getD_eq_getElem?_getD, List.getElem?_eq_getElem hi] at this
        exact le_of_lt this
      unfold argmaxGo
      rw [if_pos hbv, argmaxGo_no_improve rest (idx + 1) idx a hle]
      omega
    | succ s =>
      rw [List.getD_cons_succ] at hbv
      have hs : s < rest.length := by simpa using hr
      have hmax2 : ∀ i, i < rest.length → i ≠ s → rest.getD i 0 < rest.getD s 0 := by
        intro i hi hne
        have := hmax (i + 1) (by simpa using hi) (by omega)
        rwa [List.getD_cons_succ, List.getD_cons_succ] at this
      unfold argmaxGo
      by_cases hba : bv < a
      · rw [if_pos hba]
        have ha : a < rest.getD s 0 := by
          have := hmax 0 (by simp) (by omega)
          rwa [List.getD_cons_zero, List.getD_cons_succ] at this
        rw [ih s (idx + 1) idx a hs ha hmax2]
        omega
      · rw [if_neg hba]
        rw [ih s (idx + 1) best bv hs hbv hmax2]
        omega

theorem argmaxIdx_spike (l : List ℚ) (t0 : ℕ) (ht0 : t0 < l.length)
    (hmax : ∀ t, t < l.length → t ≠ t0 → l.getD t 0 < l.getD t0 0) :
    argmaxIdx l = t0 := by
  cases l with
  | nil => simp at ht0
  | cons a rest =>
    unfold argmaxIdx
    cases t0 with
    | zero =>
      apply argmaxGo_no_improve
      intro x hx
      obtain ⟨i, hi, rfl⟩ := List.mem_iff_getElem.mp hx
      have := hmax (i + 1) (by simpa using hi) (by omega)
      rw [List.getD_cons_succ, List.getD_cons_zero] at this
      rw [List.getD_eq_getElem?_getD, List.getElem?_eq_getElem hi] at this
      exact le_of_lt this
    | succ s =>
      have hs : s < rest.length := by simpa using ht0
      have hbv : a < rest.getD s 0 := by
        have := hmax 0 (by simp) (by omega)
        rwa [List.getD_cons_zero, List.getD_cons_succ] at this
      have hmax2 : ∀ i, i < rest.length → i ≠ s → rest.getD i 0 < rest.getD s 0 := by
        intro i hi hne
        have := hmax (i + 1) (by simpa using hi) (by omega)
        rwa [List.getD_cons_succ, List.getD_cons_succ] at this
      have hgo : argmaxGo rest 1 0 a = 1 + s := argmaxGo_spike rest s 1 0 a hs hbv hmax2
      show argmaxGo rest 1 0 a = s + 1
      omega

theorem crossCorr_length (refP perfP : List ℚ) (N : ℕ) :
    (crossCorr refP perfP N).length = N := by
  simp [crossCorr]

theorem crossCorr_getD (refP perfP : List ℚ) (N u : ℕ) (hu : u < N) :
    (crossCorr refP perfP N).getD u 0 =
      ((List.range N).map fun s => refP.getD ((s + u) % N) 0 * perfP.getD s 0).sum := by
  unfold crossCorr
  exact getD_range_map _ _ _ hu

theorem getD_drop (l : List ℚ) (m t : ℕ) :
    (l.drop m).getD t 0 = l.getD (m + t) 0 := by
  rw [List.getD_eq_getElem?_getD, List.getD_eq_getElem?_getD, List.getElem?_drop]

theorem getD_take (l : List ℚ) (m t : ℕ) (h : t < m) :
    (l.take m).getD t 0 = l.getD t 0 := by
  rw [List.getD_eq_getElem?_getD, List.getD_eq_getElem?_getD, List.getElem?_take]
  rw [if_pos h]

/-- C8 (amended): the round-trip does hold, in sign and magnitude, for
every noiseless impulse curve (a single voiced frame): shifting such a
curve by any `k` that keeps the impulse in range and has `|k| < n` and
running the estimator on curve and shifted copy returns exactly `k`. -/
theorem estimate_shift_impulse_roundtrip (n p : ℕ) (v : ℚ) (k : ℤ)
    (hn : 2 ≤ n) (hp : p < n) (hv : v ≠ 0) (hkabs : k.natAbs < n)
    (h0 : 0 ≤ (p : ℤ) - k) (h1 : (p : ℤ) - k < n) :
    estimate_shift_via_xcorr (impulse n p v) (shiftedCopy (impulse n p v) k) = k := by
  rw [shiftedCopy_impulse n p v k hp h0 h1]
  set q : ℕ := ((p : ℤ) - k).toNat with hq
  have hqk : (q : ℤ) = (p : ℤ) - k := Int.toNat_of_nonneg h0
  have hqn : q < n := by omega
  unfold estimate_shift_via_xcorr
  dsimp only
  rw [impulse_length]
  set N := padLength n with hN
  have hN2 : 2 * n ≤ N := le_padLength n
  set refP := rfftPadTrunc (impulse n p v) N with hrefP
  set perfP := rfftPadTrunc (impulse n q v) N with hperfP
  set cc := crossCorr refP perfP N with hcc
  rw [if_pos hn]
  have hccval : ∀ u, u < N → cc.getD u 0 = if (q + u) % N = p then v * v else 0 := by
    intro u hu
    rw [hcc, crossCorr_getD _ _ _ _ hu]
    rw [sum_map_range_single N q _ (by omega) ?_]
    · rw [hperfP, rfftPadTrunc_impulse_getD n q N v hqn (by omega) q (by omega), if_pos rfl]
      rw [hrefP, rfftPadTrunc_impulse_getD n p N v hp (by omega) _ (Nat.mod_lt _ (by omega))]
      rw [ite_mul, zero_mul]
    · intro s hs hsq
      rw [hperfP, rfftPadTrunc_impulse_getD n q N v hqn (by omega) s hs, if_neg hsq, mul_zero]
  have hu0cases : ∃ u0 : ℕ, u0 < N ∧ ((u0 : ℤ) = k ∨ (u0 : ℤ) = k + N) ∧
      (∀ u, u < N → ((q + u) % N = p ↔ u = u0)) := by
    refine ⟨(k % (N : ℤ)).toNat, ?_, ?_, ?_⟩
    · rcases le_or_lt 0 k with hk | hk
      · rw [Int.emod_eq_of_lt hk (by omega)]
        omega
      · have he : k % (N : ℤ) = k + N := by
          rw [← Int.add_mul_emod_self_left k (N : ℤ) 1]
          rw [mul_one, Int.emod_eq_of_lt (by omega) (by omega)]
        rw [he]
        omega
    · rcases le_or_lt 0 k with hk | hk
      · left
        rw [Int.emod_eq_of_lt hk (by omega)]
        omega
      · right
        have he : k % (N : ℤ) = k + N := by
          rw [← Int.add_mul_emod_self_left k (N : ℤ) 1]
          rw [mul_one, Int.emod_eq_of_lt (by omega) (by omega)]
        rw [he]
        omega
    · intro u hu
      have hmod : (q + u) % N = if q + u < N then q + u else q + u - N := by
        by_cases hlt : q + u < N
        · rw [if_pos hlt, Nat.mod_eq_of_lt hlt]
        · rw [if_neg hlt, Nat.mod_eq_sub_mod (by omega), Nat.mod_eq_of_lt (by omega)]
      rw [hmod]
      rcases le_or_lt 0 k with hk | hk
      · have he : k % (N : ℤ) = k := Int.emod_eq_of_lt hk (by omega)
        split <;> omega
      · have he : k % (N : ℤ) = k + N := by
          rw [← Int.add_mul_emod_self_left k (N : ℤ) 1]
          rw [mul_one, Int.emod_eq_of_lt (by omega) (by omega)]
        split <;> omega
  obtain ⟨u0, hu0lt, hu0val, hiff⟩ := hu0cases
  have hcclen : cc.length = N := crossCorr_length _ _ _
  set rot := cc.drop (N - (n - 1)) ++ cc.take n with hrot
  have hdroplen : (cc.drop (N - (n - 1))).length = n - 1 := by
    rw [List.length_drop, hcclen]
    omega
  have hrotlen : rot.length = 2 * n - 1 := by
    rw [hrot, List.length_append, hdroplen, List.length_take, hcclen]
    omega
  have hrotget : ∀ t, t < 2 * n - 1 →
      rot.getD t 0 = cc.getD (if t < n - 1 then N - (n - 1) + t else t - (n - 1)) 0 := by
    intro t ht
    by_cases htl : t < n - 1
    · rw [if_pos htl, hrot, List.getD_append _ _ _ _ (by rw [hdroplen]; omega), getD_drop]
    · rw [if_neg htl, hrot, List.getD_append_right _ _ _ _ (by rw [hdroplen]; omega), hdroplen]
      exact getD_take _ _ _ (by omega)
  set t0 : ℕ := (k + (n : ℤ) - 1).toNat with ht0
  have ht0' : (t0 : ℤ) = k + (n : ℤ) - 1 := Int.toNat_of_nonneg (by omega)
  have ht0lt : t0 < 2 * n - 1 := by omega
  have hsigma : ∀ t, t < 2 * n - 1 →
      ((if t < n - 1 then N - (n - 1) + t else t - (n - 1)) = u0 ↔ t = t0) := by
    intro t ht
    split <;> omega
  have hspikeval : rot.getD t0 0 = v * v := by
    rw [hrotget t0 ht0lt, hccval _ (by split <;> omega)]
    rw [if_pos ((hiff _ (by split <;> omega)).mpr ((hsigma t0 ht0lt).mpr rfl))]
  have hothers : ∀ t, t < rot.length → t ≠ t0 → rot.getD t 0 < rot.getD t0 0 := by
    intro t ht hne
    rw [hrotlen] at ht
    rw [hspikeval, hrotget t ht, hccval _ (by split <;> omega)]
    rw [if_neg fun hcon => hne ((hsigma t ht).mp ((hiff _ (by split <;> omega)).mp hcon))]
    exact mul_self_pos.mpr hv
  rw [argmaxIdx_spike rot t0 (by omega) hothers]
  omega

theorem estimate_shift_impulse_roundtrip_witness :
    (7 : ℚ) ≠ 0 ∧ ((1 : ℤ).natAbs < 3 ∧ 0 ≤ (1 : ℤ) - 1) ∧
    estimate_shift_via_xcorr (impulse 3 1 7) (shiftedCopy (impulse 3 1 7) 1) = 1 :=
  ⟨by norm_num, ⟨by decide, by decide⟩,
    estimate_shift_impulse_roundtrip 3 1 7 1 (by norm_num) (by norm_num) (by norm_num)
      (by decide) (by decide) (by decide)⟩

/-! ## C3, C4: structure of the run-wise smoothing -/

/-- Unfolded recursion equation for `splitRuns`. -/
theorem splitRuns_cons_eq (a : ℚ) (rest : List ℚ) :
    splitRuns (a :: rest) =
      match splitRuns rest with
      | [] => [[a]]
      | s :: ss =>
        match s with
        | [] => [a] :: s :: ss
        | b :: _ => if voiced a = voiced b then (a :: s) :: ss else [a] :: s :: ss := by
  rfl

theorem splitRuns_head (a : ℚ) (rest : List ℚ) :
    ∃ s ss, splitRuns (a :: rest) = s :: ss ∧ s.head? = some a := by
  rw [splitRuns_cons_eq]
  rcases hsr : splitRuns rest with _ | ⟨s, ss⟩
  · exact ⟨[a], [], rfl, rfl⟩
  · rcases s with _ | ⟨b, t⟩
    · exact ⟨[a], [] :: ss, rfl, rfl⟩
    · by_cases h : voiced a = voiced b
      · exact ⟨a :: b :: t, ss, by simp only [if_pos h], rfl⟩
      · exact ⟨[a], (b :: t) :: ss, by simp only [if_neg h], rfl⟩

theorem splitRuns_flatten (c : List ℚ) : (splitRuns c).flatten = c := by
  induction c with
  | nil => rfl
  | cons a rest ih =>
    rw [splitRuns_cons_eq]
    rcases hsr : splitRuns rest with _ | ⟨s, ss⟩
    · rw [hsr] at ih
      simp only [List.flatten_cons, List.flatten_nil, List.append_nil]
      rw [← ih]
      rfl
    · rw [hsr] at ih
      rcases s with _ | ⟨b, t⟩
      · simp only [List.flatten_cons] at ih ⊢
        rw [← ih]
        rfl
      · by_cases h : voiced a = voiced b
        · simp only [if_pos h, List.flatten_cons] at ih ⊢
          rw [← ih]
          rfl
        · simp only [if_neg h, List.flatten_cons] at ih ⊢
          rw [← ih]
          rfl

theorem splitRuns_uniform (c : List ℚ) : ∀ s ∈ splitRuns c, ∀ x ∈ s, ∀ y ∈ s,
    voiced x = voiced y := by
  induction c with
  | nil => simp [splitRuns]
  | cons a rest ih =>
    intro s hs x hx y hy
    rw [splitRuns_cons_eq] at hs
    rcases hsr : splitRuns rest with _ | ⟨s1, ss⟩
    · rw [hsr] at hs
      simp at hs
      subst hs
      simp at hx hy
      rw [hx, hy]
    · rw [hsr] at hs
      rcases s1 with _ | ⟨b, t⟩
      · simp at hs
        rcases hs with hs | hs | hs
        · subst hs; simp at hx hy; rw [hx, hy]
        · subst hs; simp at hx
        · exact ih s (by rw [hsr]; exact List.mem_cons_of_mem _ (by simpa using hs)) x hx y hy
      · replace hs : s ∈ (if voiced a = voiced b then (a :: b :: t) :: ss
            else [a] :: (b :: t) :: ss) := hs
        by_cases h : voiced a = voiced b
        · rw [if_pos h] at hs
          rcases List.mem_cons.mp hs with hs | hs
          · subst hs
            have huni := ih (b :: t) (by rw [hsr]; exact List.mem_cons_self _ _)
            have key : ∀ z ∈ a :: b :: t, voiced z = voiced a := by
              intro z hz
              rcases List.mem_cons.mp hz with hz | hz
              · rw [hz]
              · rw [huni z hz b (List.mem_cons_self _ _), ← h]
            rw [key x hx, key y hy]
          · exact ih s (by rw [hsr]; exact List.mem_cons_of_mem _ hs) x hx y hy
        · rw [if_neg h] at hs
          rcases List.mem_cons.mp hs with hs | hs
          · subst hs; simp at hx hy; rw [hx, hy]
          · exact ih s (by rw [hsr]; exact hs) x hx y hy

theorem splitRuns_of_uniform (c : List ℚ) (hne : c ≠ [])
    (huni : ∀ x ∈ c, ∀ y ∈ c, voiced x = voiced y) : splitRuns c = [c] := by
  induction c with
  | nil => exact absurd rfl hne
  | cons a rest ih =>
    cases rest with
    | nil => rfl
    | cons b t =>
      have hrest : splitRuns (b :: t) = [b :: t] := by
        apply ih (by simp)
        intro x hx y hy
        exact huni x (List.mem_cons_of_mem a hx) y (List.mem_cons_of_mem a hy)
      rw [splitRuns_cons_eq, hrest]
      show (if voiced a = voiced b then (a :: b :: t) :: ([] : List (List ℚ))
        else [a] :: [b :: t]) = [a :: b :: t]
      rw [if_pos (huni a (List.mem_cons_self _ _) b
        (List.mem_cons_of_mem a (List.mem_cons_self _ _)))]

theorem splitRuns_append (xs : List ℚ) : ∀ ys : List ℚ, xs ≠ [] → ys ≠ [] →
    (∀ a b, xs.getLast? = some a → ys.head? = some b → voiced a ≠ voiced b) →
    splitRuns (xs ++ ys) = splitRuns xs ++ splitRuns ys := by
  induction xs with
  | nil => intro ys hxs _ _; exact absurd rfl hxs
  | cons a xs ih =>
    intro ys _ hys hb
    cases xs with
    | nil =>
      cases ys with
      | nil => exact absurd rfl hys
      | cons y ys' =>
        obtain ⟨s, ss, hsys, hhead⟩ := splitRuns_head y ys'
        rcases s with _ | ⟨y1, s'⟩
        · simp at hhead
        · simp at hhead
          subst hhead
          show splitRuns (a :: y1 :: ys') = [[a]] ++ splitRuns (y1 :: ys')
          rw [splitRuns_cons_eq, hsys]
          show (if voiced a = voiced y1 then (a :: y1 :: s') :: ss
            else [a] :: (y1 :: s') :: ss) = [[a]] ++ (y1 :: s') :: ss
          rw [if_neg (hb a y1 rfl rfl)]
          rfl
    | cons x rest =>
      have hih := ih ys (by simp) hys (by
        intro p q hp hq
        exact hb p q (by rw [List.getLast?_cons_cons]; exact hp) hq)
      obtain ⟨s, ss, hsxs, hhead⟩ := splitRuns_head x rest
      rcases s with _ | ⟨x1, s'⟩
      · simp at hhead
      · simp at hhead
        subst hhead
        have hcat : splitRuns ((x1 :: rest) ++ ys) = (x1 :: s') :: (ss ++ splitRuns ys) := by
          rw [hih, hsxs]
          rfl
        show splitRuns (a :: ((x1 :: rest) ++ ys)) = splitRuns (a :: x1 :: rest) ++ splitRuns ys
        rw [splitRuns_cons_eq, hcat, splitRuns_cons_eq, hsxs]
        show (if voiced a = voiced x1 then (a :: x1 :: s') :: (ss ++ splitRuns ys)
            else [a] :: (x1 :: s') :: (ss ++ splitRuns ys)) =
          (if voiced a = voiced x1 then (a :: x1 :: s') :: ss
            else [a] :: (x1 :: s') :: ss) ++ splitRuns ys
        by_cases h : voiced a = voiced x1
        · rw [if_pos h, if_pos h]; rfl
        · rw [if_neg h, if_neg h]; rfl

theorem savgol_length (ys : List ℚ) (w : ℕ) :
    (savgol_filter ys w).length = ys.length := by
  simp [savgol_filter]

theorem smoothSegment_length (seg : List ℚ) :
    (smoothSegment seg).length = seg.length := by
  unfold smoothSegment
  split
  · split
    · dsimp only
      split
      · split
        · exact savgol_length _ _
        · rfl
      · split
        · exact savgol_length _ _
        · rfl
    · rfl
  · exact List.length_replicate _ _

theorem flatten_map_smooth_length (ls : List (List ℚ)) :
    ((ls.map smoothSegment).flatten).length = ls.flatten.length := by
  induction ls with
  | nil => rfl
  | cons s ss ih =>
    simp only [List.map_cons, List.flatten_cons, List.length_append, ih,
      smoothSegment_length]

theorem splitRuns_decomp (pre run post : List ℚ) (hrun_ne : run ≠ [])
    (hv : ∀ x ∈ run, voiced x = true)
    (hpre : ∀ a, pre.getLast? = some a → voiced a = false)
    (hpost : ∀ b, post.head? = some b → voiced b = false) :
    splitRuns (pre ++ (run ++ post)) = splitRuns pre ++ [run] ++ splitRuns post := by
  have hrunU : splitRuns run = [run] := by
    apply splitRuns_of_uniform run hrun_ne
    intro x hx y hy
    rw [hv x hx, hv y hy]
  have hmid : splitRuns (run ++ post) = [run] ++ splitRuns post := by
    cases hpe : post with
    | nil => simp [hrunU, splitRuns]
    | cons b post' =>
      rw [splitRuns_append run (b :: post') hrun_ne (by simp)]
      · rw [hrunU]
      · intro p q hp hq
        obtain ⟨hne, hpl⟩ := List.mem_getLast?_eq_getLast (Option.mem_def.mpr hp)
        have hpv : voiced p = true := hv p (hpl ▸ List.getLast_mem hne)
        have hqv : voiced q = false := hpost q (hpe ▸ hq)
        rw [hpv, hqv]
        simp
  cases hpr : pre with
  | nil => simp [hmid, splitRuns]
  | cons a pre' =>
    rw [splitRuns_append (a :: pre') (run ++ post) (by simp)]
    · rw [hmid, List.append_assoc]
    · rcases run with _ | ⟨r, rt⟩
      · exact absurd rfl hrun_ne
      · simp
    · intro p q hp hq
      have hpv : voiced p = false := hpre p (hpr ▸ hp)
      rcases run with _ | ⟨r, rt⟩
      · exact absurd rfl hrun_ne
      · have hq' : r = q := by simpa using hq
        rw [hpv, ← hq', hv r (List.mem_cons_self _ _)]
        simp

theorem smooth_on_run (pre run post : List ℚ) (hrun_ne : run ≠ [])
    (hv : ∀ x ∈ run, voiced x = true)
    (hpre : ∀ a, pre.getLast? = some a → voiced a = false)
    (hpost : ∀ b, post.head? = some b → voiced b = false) :
    ((get_smooth_pitch_curve (pre ++ (run ++ post))).drop pre.length).take run.length
      = smoothSegment run := by
  rcases run with _ | ⟨r, rt⟩
  · exact absurd rfl hrun_ne
  have hany : (pre ++ ((r :: rt) ++ post)).any voiced = true := by
    rw [List.any_eq_true]
    exact ⟨r, by simp, hv r (List.mem_cons_self _ _)⟩
  rw [get_smooth_pitch_curve, if_pos hany,
    splitRuns_decomp pre (r :: rt) post hrun_ne hv hpre hpost]
  rw [List.append_assoc, List.map_append, List.flatten_append]
  have hXlen : (((splitRuns pre).map smoothSegment).flatten).length = pre.length := by
    rw [flatten_map_smooth_length, splitRuns_flatten]
  rw [← hXlen, List.drop_left]
  have hhd : ([r :: rt] ++ splitRuns post).map smoothSegment =
      smoothSegment (r :: rt) :: (splitRuns post).map smoothSegment := by
    simp
  rw [hhd, List.flatten_cons]
  have hYlen : (smoothSegment (r :: rt)).length = (r :: rt).length :=
    smoothSegment_length _
  rw [← hYlen, List.take_left]

theorem quadFitEval_three (a b c t : ℚ) :
    quadFitEval [a, b, c] t =
      a + (-(3/2)*a + 2*b - (1/2)*c) * t + ((1/2)*a - b + (1/2)*c) * t * t := by
  unfold quadFitEval
  norm_num [List.enum, List.enumFrom]
  ring

theorem quadFitEval_five (a b c d e t : ℚ) :
    quadFitEval [a, b, c, d, e] t =
      ((31/35)*a + (9/35)*b - (3/35)*c - (1/7)*d + (3/35)*e)
      + (-(27/35)*a + (13/70)*b + (4/7)*c + (27/70)*d - (13/35)*e) * t
      + ((1/7)*a - (1/14)*b - (1/7)*c - (1/14)*d + (1/7)*e) * t * t := by
  unfold quadFitEval
  norm_num [List.enum, List.enumFrom]
  ring

theorem quadFit3_pos (a b c : ℚ) (ha : 60 ≤ a ∧ a < 72) (hb : 60 ≤ b ∧ b < 72)
    (hc : 60 ≤ c ∧ c < 72) (t : ℚ) (ht : t = 0 ∨ t = 1 ∨ t = 2) :
    0 < quadFitEval [a, b, c] t := by
  rw [quadFitEval_three]
  rcases ht with rfl | rfl | rfl
  · linarith [ha.1, ha.2, hb.1, hb.2, hc.1, hc.2]
  · linarith [ha.1, ha.2, hb.1, hb.2, hc.1, hc.2]
  · linarith [ha.1, ha.2, hb.1, hb.2, hc.1, hc.2]

theorem quadFit5_pos (a b c d e : ℚ) (ha : 60 ≤ a ∧ a < 72) (hb : 60 ≤ b ∧ b < 72)
    (hc : 60 ≤ c ∧ c < 72) (hd : 60 ≤ d ∧ d < 72) (he : 60 ≤ e ∧ e < 72) (t : ℚ)
    (ht : t = 0 ∨ t = 1 ∨ t = 2 ∨ t = 3 ∨ t = 4) :
    0 < quadFitEval [a, b, c, d, e] t := by
  rw [quadFitEval_five]
  rcases ht with rfl | rfl | rfl | rfl | rfl
  · linarith [ha.1, ha.2, hb.1, hb.2, hc.1, hc.2, hd.1, hd.2, he.1, he.2]
  · linarith [ha.1, ha.2, hb.1, hb.2, hc.1, hc.2, hd.1, hd.2, he.1, he.2]
  · linarith [ha.1, ha.2, hb.1, hb.2, hc.1, hc.2, hd.1, hd.2, he.1, he.2]
  · linarith [ha.1, ha.2, hb.1, hb.2, hc.1, hc.2, hd.1, hd.2, he.1, he.2]
  · linarith [ha.1, ha.2, hb.1, hb.2, hc.1, hc.2, hd.1, hd.2, he.1, he.2]

theorem exists_three (ws : List ℚ) (h : ws.length = 3) : ∃ a b c, ws = [a, b, c] := by
  rcases ws with _ | ⟨a, ws⟩
  · simp at h
  rcases ws with _ | ⟨b, ws⟩
  · simp at h
  rcases ws with _ | ⟨c, ws⟩
  · simp at h
  rcases ws with _ | ⟨d, ws⟩
  · exact ⟨a, b, c, rfl⟩
  · simp at h

theorem exists_five (ws : List ℚ) (h : ws.length = 5) :
    ∃ a b c d e, ws = [a, b, c, d, e] := by
  rcases ws with _ | ⟨a, ws⟩
  · simp at h
  rcases ws with _ | ⟨b, ws⟩
  · simp at h
  rcases ws with _ | ⟨c, ws⟩
  · simp at h
  rcases ws with _ | ⟨d, ws⟩
  · simp at h
  rcases ws with _ | ⟨e, ws⟩
  · simp at h
  rcases ws with _ | ⟨f, ws⟩
  · exact ⟨a, b, c, d, e, rfl⟩
  · simp at h

theorem savgol_pos (ys : List ℚ) (w : ℕ) (hw : w = 3 ∨ w = 5) (hlen : w ≤ ys.length)
    (hrange : ∀ x ∈ ys, 60 ≤ x ∧ x < 72) (o : ℕ) (ho : o < ys.length) :
    0 < (savgol_filter ys w).getD o 0 := by
  unfold savgol_filter
  dsimp only
  rw [getD_range_map _ _ _ ho]
  rcases hw with rfl | rfl
  · by_cases h1 : o < (3 - 1) / 2
    · rw [if_pos h1]
      obtain ⟨a, b, c, habc⟩ := exists_three (ys.take 3)
        (by rw [List.length_take]; omega)
      rw [habc]
      refine quadFit3_pos a b c ?_ ?_ ?_ _ (Or.inl ?_)
      · exact hrange a (List.mem_of_mem_take (by rw [habc]; simp))
      · exact hrange b (List.mem_of_mem_take (by rw [habc]; simp))
      · exact hrange c (List.mem_of_mem_take (by rw [habc]; simp))
      · have ho0 : o = 0 := by omega
        rw [ho0]
        norm_num
    · rw [if_neg h1]
      by_cases h2 : ys.length - (3 - 1) / 2 ≤ o
      · rw [if_pos h2]
        obtain ⟨a, b, c, habc⟩ := exists_three (ys.drop (ys.length - 3))
          (by rw [List.length_drop]; omega)
        rw [habc]
        refine quadFit3_pos a b c ?_ ?_ ?_ _ (Or.inr (Or.inr ?_))
        · exact hrange a (List.mem_of_mem_drop (by rw [habc]; simp))
        · exact hrange b (List.mem_of_mem_drop (by rw [habc]; simp))
        · exact hrange c (List.mem_of_mem_drop (by rw [habc]; simp))
        · have hoL : o = ys.length - 1 := by omega
          have h3L : 3 ≤ ys.length := hlen
          have hcast : (o : ℚ) = (ys.length : ℚ) - 1 := by
            rw [hoL]
            push_cast [Nat.cast_sub (by omega : 1 ≤ ys.length)]
            ring
          rw [hcast]
          ring
      · rw [if_neg h2]
        obtain ⟨a, b, c, habc⟩ := exists_three ((ys.drop (o - (3 - 1) / 2)).take 3)
          (by rw [List.length_take, List.length_drop]; omega)
        rw [habc]
        refine quadFit3_pos a b c ?_ ?_ ?_ _ (Or.inr (Or.inl ?_))
        · exact hrange a (List.mem_of_mem_drop (List.mem_of_mem_take (by rw [habc]; simp)))
        · exact hrange b (List.mem_of_mem_drop (List.mem_of_mem_take (by rw [habc]; simp)))
        · exact hrange c (List.mem_of_mem_drop (List.mem_of_mem_take (by rw [habc]; simp)))
        · norm_num
  · by_cases h1 : o < (5 - 1) / 2
    · rw [if_pos h1]
      obtain ⟨a, b, c, d, e, habc⟩ := exists_five (ys.take 5)
        (by rw [List.length_take]; omega)
      rw [habc]
      refine quadFit5_pos a b c d e ?_ ?_ ?_ ?_ ?_ _ ?_
      · exact hrange a (List.mem_of_mem_take (by rw [habc]; simp))
      · exact hrange b (List.mem_of_mem_take (by rw [habc]; simp))
      · exact hrange c (List.mem_of_mem_take (by rw [habc]; simp))
      · exact hrange d (List.mem_of_mem_take (by rw [habc]; simp))
      · exact hrange e (List.mem_of_mem_take (by rw [habc]; simp))
      · have : o = 0 ∨ o = 1 := by omega
        rcases this with rfl | rfl
        · exact Or.inl (by norm_num)
        · exact Or.inr (Or.inl (by norm_num))
    · rw [if_neg h1]
      by_cases h2 : ys.length - (5 - 1) / 2 ≤ o
      · rw [if_pos h2]
        obtain ⟨a, b, c, d, e, habc⟩ := exists_five (ys.drop (ys.length - 5))
          (by rw [List.length_drop]; omega)
        rw [habc]
        refine quadFit5_pos a b c d e ?_ ?_ ?_ ?_ ?_ _ ?_
        · exact hrange a (List.mem_of_mem_drop (by rw [habc]; simp))
        · exact hrange b (List.mem_of_mem_drop (by rw [habc]; simp))
        · exact hrange c (List.mem_of_mem_drop (by rw [habc]; simp))
        · exact hrange d (List.mem_of_mem_drop (by rw [habc]; simp))
        · exact hrange e (List.mem_of_mem_drop (by rw [habc]; simp))
        · have h5L : 5 ≤ ys.length := hlen
          have : o = ys.length - 2 ∨ o = ys.length - 1 := by omega
          rcases this with hoL | hoL
          · refine Or.inr (Or.inr (Or.inr (Or.inl ?_)))
            have hcast : (o : ℚ) = (ys.length : ℚ) - 2 := by
              rw [hoL]
              push_cast [Nat.cast_sub (by omega : 2 ≤ ys.length)]
              ring
            rw [hcast]
            ring
          · refine Or.inr (Or.inr (Or.inr (Or.inr ?_)))
            have hcast : (o : ℚ) = (ys.length : ℚ) - 1 := by
              rw [hoL]
              push_cast [Nat.cast_sub (by omega : 1 ≤ ys.length)]
              ring
            rw [hcast]
            ring
      · rw [if_neg h2]
        obtain ⟨a, b, c, d, e, habc⟩ := exists_five ((ys.drop (o - (5 - 1) / 2)).take 5)
          (by rw [List.length_take, List.length_drop]; omega)
        rw [habc]
        refine quadFit5_pos a b c d e ?_ ?_ ?_ ?_ ?_ _ (Or.inr (Or.inr (Or.inl ?_)))
        · exact hrange a (List.mem_of_mem_drop (List.mem_of_mem_take (by rw [habc]; simp)))
        · exact hrange b (List.mem_of_mem_drop (List.mem_of_mem_take (by rw [habc]; simp)))
        · exact hrange c (List.mem_of_mem_drop (List.mem_of_mem_take (by rw [habc]; simp)))
        · exact hrange d (List.mem_of_mem_drop (List.mem_of_mem_take (by rw [habc]; simp)))
        · exact hrange e (List.mem_of_mem_drop (List.mem_of_mem_take (by rw [habc]; simp)))
        · norm_num

theorem get_smooth_length (c : List ℚ) :
    (get_smooth_pitch_curve c).length = c.length := by
  unfold get_smooth_pitch_curve
  split
  · rw [flatten_map_smooth_length, splitRuns_flatten]
  · exact List.length_replicate _ _

theorem smoothSegment_zero_pattern (s : List ℚ)
    (huni : ∀ x ∈ s, ∀ y ∈ s, voiced x = voiced y)
    (hvals : ∀ x ∈ s, x = 0 ∨ (60 ≤ x ∧ x < 72)) (o : ℕ) :
    ((smoothSegment s).getD o 0 = 0 ↔ s.getD o 0 = 0) := by
  by_cases hany : s.any voiced
  · have hall : ∀ x ∈ s, voiced x = true := by
      rw [List.any_eq_true] at hany
      obtain ⟨v, hvmem, hvv⟩ := hany
      intro x hx
      rw [huni x hx v hvmem, hvv]
    have hpos : ∀ x ∈ s, 60 ≤ x ∧ x < 72 := by
      intro x hx
      rcases hvals x hx with h0 | h
      · exfalso
        have := hall x hx
        rw [h0] at this
        simp [voiced] at this
      · exact h
    by_cases ho : o < s.length
    · have hrhs : ¬ s.getD o 0 = 0 := by
        rw [List.getD_eq_getElem _ _ ho]
        have := hpos (s[o]) (List.getElem_mem ho)
        intro hzero
        rw [hzero] at this
        linarith [this.1]
    -- LHS
      have hlhs : ¬ (smoothSegment s).getD o 0 = 0 := by
        rw [smoothSegment, if_pos hany]
        by_cases h5 : 5 ≤ s.length
        · rw [if_pos h5]
          dsimp only
          have h3 : 3 ≤ (if min 5 (s.length - 2) % 2 = 0 then min 5 (s.length - 2) - 1
              else min 5 (s.length - 2)) := by
            by_cases hpar : min 5 (s.length - 2) % 2 = 0
            · rw [if_pos hpar]; omega
            · rw [if_neg hpar]; omega
          rw [if_pos h3]
          have hw : (if min 5 (s.length - 2) % 2 = 0 then min 5 (s.length - 2) - 1
              else min 5 (s.length - 2)) = 3 ∨
              (if min 5 (s.length - 2) % 2 = 0 then min 5 (s.length - 2) - 1
              else min 5 (s.length - 2)) = 5 := by
            by_cases hpar : min 5 (s.length - 2) % 2 = 0
            · rw [if_pos hpar]; omega
            · rw [if_neg hpar]; omega
          have hwlen : (if min 5 (s.length - 2) % 2 = 0 then min 5 (s.length - 2) - 1
              else min 5 (s.length - 2)) ≤ s.length := by
            by_cases hpar : min 5 (s.length - 2) % 2 = 0
            · rw [if_pos hpar]; omega
            · rw [if_neg hpar]; omega
          have := savgol_pos s _ hw hwlen hpos o ho
          intro hzero
          rw [hzero] at this
          exact lt_irrefl 0 this
        · rw [if_neg h5]
          exact hrhs
      exact iff_of_false hlhs hrhs
    · push_neg at ho
      have h1 : (smoothSegment s).getD o 0 = 0 :=
        List.getD_eq_default _ _ (by rw [smoothSegment_length]; exact ho)
      have h2 : s.getD o 0 = 0 := List.getD_eq_default _ _ ho
      rw [h1, h2]
  · have hz : ∀ x ∈ s, x = 0 := by
      intro x hx
      by_contra hne
      apply hany
      rw [List.any_eq_true]
      refine ⟨x, hx, ?_⟩
      simp [voiced, hne]
    rw [smoothSegment, if_neg hany]
    by_cases ho : o < s.length
    · rw [List.getD_eq_getElem _ _ (by rw [List.length_replicate]; exact ho),
        List.getElem_replicate, List.getD_eq_getElem _ _ ho]
      simp [hz (s[o]) (List.getElem_mem ho)]
    · push_neg at ho
      rw [List.getD_eq_default _ _ (by rw [List.length_replicate]; exact ho),
        List.getD_eq_default _ _ ho]

theorem segs_zero_pattern (ls : List (List ℚ))
    (h : ∀ s ∈ ls, ∀ o, ((smoothSegment s).getD o 0 = 0 ↔ s.getD o 0 = 0)) :
    ∀ i, (((ls.map smoothSegment).flatten).getD i 0 = 0 ↔ ls.flatten.getD i 0 = 0) := by
  induction ls with
  | nil => intro i; simp
  | cons s ss ih =>
    intro i
    simp only [List.map_cons, List.flatten_cons]
    by_cases hi : i < s.length
    · rw [List.getD_append _ _ _ _ (by rw [smoothSegment_length]; exact hi),
        List.getD_append _ _ _ _ hi]
      exact h s (List.mem_cons_self _ _) i
    · push_neg at hi
      rw [List.getD_append_right _ _ _ _ (by rw [smoothSegment_length]; exact hi),
        List.getD_append_right _ _ _ _ hi, smoothSegment_length]
      exact ih (fun s hs => h s (List.mem_cons_of_mem _ hs)) (i - s.length)

/-- C4: on folded curves (every entry 0 or in [60, 72)), smoothing preserves
length and the zero pattern exactly: an output frame is zero iff the input
frame there is zero (silent runs stay exactly zero, voiced frames stay
nonzero). -/
theorem smoothing_preserves_zero_pattern (c : List ℚ)
    (hvals : ∀ x ∈ c, x = 0 ∨ (60 ≤ x ∧ x < 72)) :
    (get_smooth_pitch_curve c).length = c.length ∧
    ∀ i, ((get_smooth_pitch_curve c).getD i 0 = 0 ↔ c.getD i 0 = 0) := by
  refine ⟨get_smooth_length c, ?_⟩
  intro i
  unfold get_smooth_pitch_curve
  by_cases hany : c.any voiced
  · rw [if_pos hany]
    have key := segs_zero_pattern (splitRuns c) ?_ i
    · rwa [splitRuns_flatten] at key
    · intro s hs o
      apply smoothSegment_zero_pattern
      · exact splitRuns_uniform c s hs
      · intro x hx
        apply hvals
        have hmem : x ∈ (splitRuns c).flatten := List.mem_flatten.mpr ⟨s, hs, hx⟩
        rwa [splitRuns_flatten] at hmem
  · rw [if_neg hany]
    have hz : ∀ x ∈ c, x = 0 := by
      intro x hx
      by_contra hne
      apply hany
      rw [List.any_eq_true]
      exact ⟨x, hx, by simp [voiced, hne]⟩
    by_cases hi : i < c.length
    · rw [List.getD_eq_getElem _ _ (by rw [List.length_replicate]; exact hi),
        List.getElem_replicate, List.getD_eq_getElem _ _ hi]
      simp [hz _ (List.getElem_mem hi)]
    · push_neg at hi
      rw [List.getD_eq_default _ _ (by rw [List.length_replicate]; exact hi),
        List.getD_eq_default _ _ hi]

/-- C3: in the smoothing step, every maximal contiguous voiced run (delimited
by a silent frame or the curve edge on each side) of at least 5 frames is
replaced by its Savitzky-Golay filtering with window `min 5 (len - 2)` forced
odd (always at least 3 there), while shorter voiced runs pass through
unchanged. -/
theorem savgol_applied_per_voiced_run (pre run post : List ℚ) (hrun_ne : run ≠ [])
    (hv : ∀ x ∈ run, voiced x = true)
    (hpre : ∀ a, pre.getLast? = some a → voiced a = false)
    (hpost : ∀ b, post.head? = some b → voiced b = false) :
    ((get_smooth_pitch_curve (pre ++ (run ++ post))).drop pre.length).take run.length
      = if 5 ≤ run.length
        then savgol_filter run
          (if min 5 (run.length - 2) % 2 = 0 then min 5 (run.length - 2) - 1
           else min 5 (run.length - 2))
        else run := by
  rw [smooth_on_run pre run post hrun_ne hv hpre hpost]
  have hanyr : run.any voiced = true := by
    rcases hre : run with _ | ⟨r, rt⟩
    · exact absurd hre hrun_ne
    · rw [List.any_eq_true]
      exact ⟨r, List.mem_cons_self _ _, by
        apply hv
        rw [hre]
        exact List.mem_cons_self _ _⟩
  rw [smoothSegment, if_pos hanyr]
  by_cases h5 : 5 ≤ run.length
  · rw [if_pos h5, if_pos h5]
    dsimp only
    have h3 : 3 ≤ (if min 5 (run.length - 2) % 2 = 0 then min 5 (run.length - 2) - 1
        else min 5 (run.length - 2)) := by
      by_cases hpar : min 5 (run.length - 2) % 2 = 0
      · rw [if_pos hpar]; omega
      · rw [if_neg hpar]; omega
    rw [if_pos h3]
  · rw [if_neg h5, if_neg h5]

theorem savgol_applied_per_voiced_run_witness :
    ((get_smooth_pitch_curve ([0] ++ ([63, 64, 63, 64, 63] ++ [0]))).drop 1).take 5
      = if 5 ≤ ([63, 64, 63, 64, 63] : List ℚ).length
        then savgol_filter [63, 64, 63, 64, 63]
          (if min 5 (([63, 64, 63, 64, 63] : List ℚ).length - 2) % 2 = 0
           then min 5 (([63, 64, 63, 64, 63] : List ℚ).length - 2) - 1
           else min 5 (([63, 64, 63, 64, 63] : List ℚ).length - 2))
        else [63, 64, 63, 64, 63] := by
  exact savgol_applied_per_voiced_run [0] [63, 64, 63, 64, 63] [0]
    (by simp)
    (by with_unfolding_all decide)
    (by
      intro a ha
      rw [show ([0] : List ℚ).getLast? = some 0 from rfl] at ha
      injection ha with h
      subst h
      with_unfolding_all decide)
    (by
      intro b hb
      rw [show ([0] : List ℚ).head? = some 0 from rfl] at hb
      injection hb with h
      subst h
      with_unfolding_all decide)

theorem smoothing_preserves_zero_pattern_witness :
    (get_smooth_pitch_curve [0, 63, 70, 0]).length = ([0, 63, 70, 0] : List ℚ).length ∧
    ∀ i, ((get_smooth_pitch_curve [0, 63, 70, 0]).getD i 0 = 0 ↔
      ([0, 63, 70, 0] : List ℚ).getD i 0 = 0) :=
  smoothing_preserves_zero_pattern [0, 63, 70, 0] (by with_unfolding_all decide)

/-! ## C5: self-similarity of a curve scored against itself -/

theorem qabs_nonneg (x : ℚ) : 0 ≤ qabs x := by
  unfold qabs
  split <;> linarith

theorem circ_nonneg (a b : ℚ) (h : qabs (a - b) ≤ 12) :
    0 ≤ circular_semitone_distance a b := by
  unfold circular_semitone_distance qmin
  have := qabs_nonneg (a - b)
  split <;> linarith

theorem optLE_refl (a : Option ℚ) : optLE a a = true := by
  cases a with
  | none => rfl
  | some v => simp [optLE]

theorem optLE_total (a b : Option ℚ) : optLE a b = true ∨ optLE b a = true := by
  cases a with
  | none => cases b with
    | none => left; rfl
    | some v => right; rfl
  | some v => cases b with
    | none => left; rfl
    | some w =>
      simp [optLE]
      exact le_total v w

theorem min3_mem (c1 c2 c3 : Option ℚ × ℕ × ℕ) :
    min3 c1 c2 c3 = c1 ∨ min3 c1 c2 c3 = c2 ∨ min3 c1 c2 c3 = c3 := by
  unfold min3
  split
  · left; rfl
  · split
    · right; left; rfl
    · right; right; rfl

theorem min3_le_third (c1 c2 c3 : Option ℚ × ℕ × ℕ) :
    optLE (min3 c1 c2 c3).1 c3.1 = true := by
  unfold min3
  split
  · rename_i h
    exact (Bool.and_eq_true _ _ |>.mp h).2
  · split
    · assumption
    · exact optLE_refl _

theorem dtwLookup_some (D : DtwTable) (p : ℕ × ℕ) (val : ℚ × ℕ × ℕ)
    (h : dtwLookup D p = some val) : (p, val) ∈ D := by
  unfold dtwLookup at h
  rcases hf : D.find? (fun e => e.1.1 == p.1 && e.1.2 == p.2) with _ | e
  · rw [hf] at h
    simp at h
  · rw [hf] at h
    simp at h
    have hp := List.find?_some hf
    have hm := List.mem_of_find?_eq_some hf
    simp only [Bool.and_eq_true, beq_iff_eq] at hp
    have hkey : e.1 = p := by
      rcases e with ⟨⟨e1, e2⟩, ev⟩
      rcases p with ⟨p1, p2⟩
      simp at hp
      simp [hp.1, hp.2]
    rw [← hkey, ← h]
    exact hm

theorem dtw_fold_lb (x y : List ℚ) (φ : ℕ → ℚ) :
    ∀ (cells : List (ℕ × ℕ)) (D : DtwTable),
    (∀ e ∈ D, φ e.1.1 ≤ e.2.1) →
    (∀ c ∈ cells,
      0 ≤ circular_semitone_distance (x.getD (c.1 - 1) 0) (y.getD (c.2 - 1) 0) ∧
      φ c.1 ≤ φ (c.1 - 1) +
        circular_semitone_distance (x.getD (c.1 - 1) 0) (y.getD (c.2 - 1) 0)) →
    ∀ e ∈ cells.foldl (dtwStep x y) D, φ e.1.1 ≤ e.2.1 := by
  intro cells
  induction cells with
  | nil =>
    intro D hD _ e he
    exact hD e he
  | cons c cs ih =>
    intro D hD hc e he
    rw [List.foldl_cons] at he
    refine ih (dtwStep x y D c) ?_ (fun c' hc' => hc c' (List.mem_cons_of_mem _ hc')) e he
    intro e' he'
    have hcc := hc c (List.mem_cons_self _ _)
    unfold dtwStep at he'
    dsimp only at he'
    rcases hsplit : (min3
        ((dtwLookup D (c.1 - 1, c.2)).map
          (fun v => v.1 + circular_semitone_distance (x.getD (c.1 - 1) 0) (y.getD (c.2 - 1) 0)),
          (c.1 - 1, c.2))
        ((dtwLookup D (c.1, c.2 - 1)).map
          (fun v => v.1 + circular_semitone_distance (x.getD (c.1 - 1) 0) (y.getD (c.2 - 1) 0)),
          (c.1, c.2 - 1))
        ((dtwLookup D (c.1 - 1, c.2 - 1)).map
          (fun v => v.1 + circular_semitone_distance (x.getD (c.1 - 1) 0) (y.getD (c.2 - 1) 0)),
          (c.1 - 1, c.2 - 1))).1 with _ | v
    · rw [hsplit] at he'
      exact hD e' he'
    · rw [hsplit] at he'
      rcases List.mem_cons.mp he' with he' | he'
      · subst he'
        dsimp only
        -- the stored value comes from one of the three candidates
        have hmem := min3_mem
          ((dtwLookup D (c.1 - 1, c.2)).map
            (fun v => v.1 + circular_semitone_distance (x.getD (c.1 - 1) 0) (y.getD (c.2 - 1) 0)),
            (c.1 - 1, c.2))
          ((dtwLookup D (c.1, c.2 - 1)).map
            (fun v => v.1 + circular_semitone_distance (x.getD (c.1 - 1) 0) (y.getD (c.2 - 1) 0)),
            (c.1, c.2 - 1))
          ((dtwLookup D (c.1 - 1, c.2 - 1)).map
            (fun v => v.1 + circular_semitone_distance (x.getD (c.1 - 1) 0) (y.getD (c.2 - 1) 0)),
            (c.1 - 1, c.2 - 1))
        rcases hmem with hbe | hbe | hbe
        · rw [hbe] at hsplit
          rcases hlk : dtwLookup D (c.1 - 1, c.2) with _ | u
        -- none case: contradiction with hsplit
          · rw [hlk] at hsplit
            simp at hsplit
          · rw [hlk] at hsplit
            simp only [Option.map_some', Option.some.injEq] at hsplit
            have hmem2 := dtwLookup_some D (c.1 - 1, c.2) u hlk
            have hphi := hD _ hmem2
            calc φ c.1 ≤ φ (c.1 - 1) +
                circular_semitone_distance (x.getD (c.1 - 1) 0) (y.getD (c.2 - 1) 0) := hcc.2
              _ ≤ u.1 + circular_semitone_distance (x.getD (c.1 - 1) 0) (y.getD (c.2 - 1) 0) := by
                  exact add_le_add_right hphi _
              _ = v := hsplit
        · rw [hbe] at hsplit
          rcases hlk : dtwLookup D (c.1, c.2 - 1) with _ | u
          · rw [hlk] at hsplit
            simp at hsplit
          · rw [hlk] at hsplit
            simp only [Option.map_some', Option.some.injEq] at hsplit
            have hmem2 := dtwLookup_some D (c.1, c.2 - 1) u hlk
            have hphi := hD _ hmem2
            calc φ c.1 ≤ φ c.1 +
                circular_semitone_distance (x.getD (c.1 - 1) 0) (y.getD (c.2 - 1) 0) := by
                  linarith [hcc.1]
              _ ≤ u.1 + circular_semitone_distance (x.getD (c.1 - 1) 0) (y.getD (c.2 - 1) 0) := by
                  exact add_le_add_right hphi _
              _ = v := hsplit
        · rw [hbe] at hsplit
          rcases hlk : dtwLookup D (c.1 - 1, c.2 - 1) with _ | u
          · rw [hlk] at hsplit
            simp at hsplit
          · rw [hlk] at hsplit
            simp only [Option.map_some', Option.some.injEq] at hsplit
            have hmem2 := dtwLookup_some D (c.1 - 1, c.2 - 1) u hlk
            have hphi := hD _ hmem2
            calc φ c.1 ≤ φ (c.1 - 1) +
                circular_semitone_distance (x.getD (c.1 - 1) 0) (y.getD (c.2 - 1) 0) := hcc.2
              _ ≤ u.1 + circular_semitone_distance (x.getD (c.1 - 1) 0) (y.getD (c.2 - 1) 0) := by
                  exact add_le_add_right hphi _
              _ = v := hsplit
      · exact hD e' he'

theorem scanRow_mem (p : ℕ → Bool) :
    ∀ (js : List ℕ) (ns : Option ℕ), ∀ j ∈ (scanRow p js ns).1, j ∈ js ∧ p j = true := by
  intro js
  induction js with
  | nil => intro ns j hj; simp [scanRow] at hj
  | cons j0 rest ih =>
    intro ns j hj
    unfold scanRow at hj
    by_cases hp : p j0
    · rw [if_pos hp] at hj
      dsimp only at hj
      rcases List.mem_cons.mp hj with hj | hj
      · subst hj
        exact ⟨List.mem_cons_self _ _, hp⟩
      · obtain ⟨hmem, hpj⟩ := ih _ j hj
        exact ⟨List.mem_cons_of_mem _ hmem, hpj⟩
    · rw [if_neg hp] at hj
      rcases ns with _ | s
      · obtain ⟨hmem, hpj⟩ := ih none j hj
        exact ⟨List.mem_cons_of_mem _ hmem, hpj⟩
      · simp at hj

theorem scanRows_mem (p : ℕ → ℕ → Bool) (lenY : ℕ) :
    ∀ (rows : List ℕ) (startJ : ℕ), ∀ c ∈ scanRows p lenY rows startJ,
      c.1 ∈ rows ∧ c.2 < lenY ∧ p c.1 c.2 = true := by
  intro rows
  induction rows with
  | nil => intro startJ c hc; simp [scanRows] at hc
  | cons i rest ih =>
    intro startJ c hc
    unfold scanRows at hc
    dsimp only at hc
    rcases List.mem_append.mp hc with hc | hc
    · obtain ⟨j, hj, hcj⟩ := List.mem_map.mp hc
      obtain ⟨hmem, hpj⟩ := scanRow_mem (p i) _ none j hj
      have hjlt : j < lenY := by
        have := List.mem_range'_1.mp hmem
        omega
      rw [← hcj]
      exact ⟨List.mem_cons_self _ _, hjlt, hpj⟩
    · rcases hns : (scanRow (p i) (List.range' startJ (lenY - startJ)) none).2 with _ | s
      · rw [hns] at hc
        simp at hc
      · rw [hns] at hc
        obtain ⟨hmem, h2, h3⟩ := ih s c hc
        exact ⟨List.mem_cons_of_mem _ hmem, h2, h3⟩

theorem expandWindow_mem (path : List (ℕ × ℕ)) (lenX lenY radius : ℕ) :
    ∀ c ∈ expandWindow path lenX lenY radius,
      c.1 < lenX ∧ c.2 < lenY ∧ inExpandedSet path radius c.1 c.2 = true := by
  intro c hc
  obtain ⟨h1, h2, h3⟩ := scanRows_mem (inExpandedSet path radius) lenY (List.range lenX) 0 c hc
  exact ⟨List.mem_range.mp h1, h2, h3⟩

theorem corner_window_gap (path : List (ℕ × ℕ))
    (hpath : path.all (fun c => c.1 == 0 || c.2 == 27) = true)
    (i j : ℕ) (hw : inExpandedSet path 10 i j = true) (hi : 22 ≤ i) : 34 ≤ j := by
  unfold inExpandedSet at hw
  rw [List.any_eq_true] at hw
  obtain ⟨c, hc, hcb⟩ := hw
  rw [List.all_eq_true] at hpath
  have hcp := hpath c hc
  simp only [Bool.or_eq_true, beq_iff_eq] at hcp
  simp only [Bool.and_eq_true, decide_eq_true_eq] at hcb
  rcases hcp with hcp | hcp
  · exfalso
    rw [hcp] at hcb
    omega
  · rw [hcp] at hcb
    omega

theorem zigzag_vals : ∀ t < 56, zigzag56.getD t 0 = 57 ∨ zigzag56.getD t 0 = 63 ∨
    zigzag56.getD t 0 = 69 := by
  with_unfolding_all decide

theorem zigzag_low : ∀ t < 34, zigzag56.getD t 0 = 63 := by
  with_unfolding_all decide

theorem zigzag_high : ∀ t < 56, 34 ≤ t → zigzag56.getD t 0 = 57 ∨
    zigzag56.getD t 0 = 69 := by
  with_unfolding_all decide

theorem circ_63_57 : circular_semitone_distance 63 57 = 6 := by
  with_unfolding_all decide

theorem circ_63_69 : circular_semitone_distance 63 69 = 6 := by
  with_unfolding_all decide

theorem zigzag_windowed_lb (window : List (ℕ × ℕ))
    (hwin : ∀ c ∈ window, c.1 < 56 ∧ c.2 < 56 ∧ (22 ≤ c.1 → 34 ≤ c.2)) :
    ∀ v, (dtwWindowed zigzag56 zigzag56 window).1 = some v → 72 ≤ v := by
  intro v hv
  unfold dtwWindowed at hv
  dsimp only at hv
  rw [dtwRun_eq_foldl _ _ _ _ (by simp)] at hv
  rcases hlk : dtwLookup ((window.map fun c => (c.1 + 1, c.2 + 1)).foldl
      (dtwStep zigzag56 zigzag56) [((0, 0), (0, 0, 0))])
      (zigzag56.length, zigzag56.length) with _ | u
  · rw [hlk] at hv
    simp at hv
  · rw [hlk] at hv
    simp only [Option.map_some', Option.some.injEq] at hv
    have hmem := dtwLookup_some _ _ _ hlk
    have key := dtw_fold_lb zigzag56 zigzag56
      (fun i => 6 * (((min i 34 - 22 : ℕ)) : ℚ))
      (window.map fun c => (c.1 + 1, c.2 + 1)) [((0, 0), (0, 0, 0))]
      (by
        intro e he
        simp at he
        rw [he]
        norm_num)
      (by
        intro c' hc'
        obtain ⟨c, hcw, hcc⟩ := List.mem_map.mp hc'
        obtain ⟨ha, hb, hgap⟩ := hwin c hcw
        subst hcc
        dsimp only
        have hax : (c.1 + 1 : ℕ) - 1 = c.1 := by omega
        have hbx : (c.2 + 1 : ℕ) - 1 = c.2 := by omega
        rw [hax, hbx]
        have hv1 := zigzag_vals c.1 ha
        have hv2 := zigzag_vals c.2 hb
        have hdt0 : 0 ≤ circular_semitone_distance (zigzag56.getD c.1 0)
            (zigzag56.getD c.2 0) := by
          apply circ_nonneg
          rcases hv1 with h | h | h <;> rcases hv2 with g | g | g <;>
            rw [h, g] <;> norm_num [qabs]
        refine ⟨hdt0, ?_⟩
        by_cases h22 : c.1 ≤ 21
        · have e1 : min (c.1 + 1) 34 - 22 = 0 := by omega
          have e2 : min c.1 34 - 22 = 0 := by omega
          rw [e1, e2]
          simp only [Nat.cast_zero, mul_zero, zero_add]
          exact hdt0
        · by_cases h34 : 34 ≤ c.1
          · have e1 : min (c.1 + 1) 34 - 22 = 12 := by omega
            have e2 : min c.1 34 - 22 = 12 := by omega
            rw [e1, e2]
            linarith
          · -- 22 ≤ c.1 ≤ 33: the forced-cost band
            have e1 : min (c.1 + 1) 34 - 22 = (min c.1 34 - 22) + 1 := by omega
            rw [e1, Nat.cast_add, Nat.cast_one]
            have hdt6 : circular_semitone_distance (zigzag56.getD c.1 0)
                (zigzag56.getD c.2 0) = 6 := by
              rw [zigzag_low c.1 (by omega)]
              rcases zigzag_high c.2 hb (hgap (by omega)) with g | g <;> rw [g]
              · exact circ_63_57
              · exact circ_63_69
            rw [hdt6]
            ring_nf
            linarith)
      _ hmem
    dsimp only at key
    have hlen : zigzag56.length = 56 := by rfl
    rw [hlen] at key
    have e3 : min 56 34 - 22 = 12 := by omega
    rw [e3] at key
    rw [← hv]
    push_cast at key
    linarith

set_option maxHeartbeats 4000000 in
theorem zigzag_coarse_path_corner :
    ((fastdtwFuel 10 56 (reduceByHalf zigzag56) (reduceByHalf zigzag56)).2).all
      (fun c => c.1 == 0 || c.2 == 27) = true := by
  with_unfolding_all decide

theorem zigzag_final_lb :
    ∀ v, (fastdtw 10 zigzag56 zigzag56).1 = some v → 72 ≤ v := by
  intro v hv
  have hunf : fastdtw 10 zigzag56 zigzag56 =
      dtwWindowed zigzag56 zigzag56
        (expandWindow
          (fastdtwFuel 10 56 (reduceByHalf zigzag56) (reduceByHalf zigzag56)).2
          56 56 10) := by
    show fastdtwFuel 10 (zigzag56.length + 1) zigzag56 zigzag56 = _
    rw [fastdtwFuel]
    rw [if_neg (by with_unfolding_all decide :
      ¬(zigzag56.length < 10 + 2 ∨ zigzag56.length < 10 + 2))]
    rfl
  rw [hunf] at hv
  refine zigzag_windowed_lb _ ?_ v hv
  intro c hc
  obtain ⟨h1, h2, h3⟩ := expandWindow_mem _ 56 56 10 c hc
  exact ⟨h1, h2, corner_window_gap _ zigzag_coarse_path_corner c.1 c.2 h3⟩

theorem calc_sim_shape (curve1 curve2 : List ℚ)
    (hne : ¬(validPairs (truncTo curve1 curve2) (truncTo curve2 curve1)).isEmpty = true)
    (hlen : ¬(((validPairs (truncTo curve1 curve2) (truncTo curve2 curve1)).map
        (·.1)).length < 2 ∨
      ((validPairs (truncTo curve1 curve2) (truncTo curve2 curve1)).map
        (·.2)).length < 2)) :
    calculate_curve_similarity curve1 curve2 =
      match (fastdtw 10 (dtwInput1 curve1 curve2) (dtwInput2 curve1 curve2)).1 with
      | none => 0
      | some d =>
        scaled_similarity
            (qmax 0 (100 * (1 - d / (6 * ((dtwInput1 curve1 curve2).length : ℚ))))) *
          overlap_fraction (truncTo curve1 curve2) (truncTo curve2 curve1) * (111 / 100) := by
  unfold calculate_curve_similarity
  dsimp only
  rw [if_neg hne, if_neg hlen]

/-- C5 counterexample: `zigzag56` has 56 voiced frames, yet scoring it
against itself yields at most 629/7 < 90 — the coarse fastdtw pass on the
constant half-resolution curve commits to a corner path, the expanded
window then excludes the diagonal for rows 22–33, and each of those rows
is forced to pay circular distance 6, for a self-distance of at least 72. -/
theorem self_similarity_counterexample :
    2 ≤ voicedCount zigzag56 ∧
    ¬ 90 < calculate_curve_similarity zigzag56 zigzag56 := by
  refine ⟨by with_unfolding_all decide, ?_⟩
  have heq := calc_sim_shape zigzag56 zigzag56
    (by with_unfolding_all decide)
    (by with_unfolding_all decide)
  rw [show dtwInput1 zigzag56 zigzag56 = zigzag56 from by with_unfolding_all decide,
    show dtwInput2 zigzag56 zigzag56 = zigzag56 from by with_unfolding_all decide,
    show overlap_fraction (truncTo zigzag56 zigzag56) (truncTo zigzag56 zigzag56) = 1
      from by with_unfolding_all decide,
    show ((zigzag56.length : ℕ) : ℚ) = 56 from by
      norm_num [show zigzag56.length = 56 from rfl]] at heq
  rw [heq]
  rcases hfd : (fastdtw 10 zigzag56 zigzag56).1 with _ | d
  · norm_num
  · have hlb := zigzag_final_lb d hfd
    show ¬ 90 < scaled_similarity (qmax 0 (100 * (1 - d / (6 * (56 : ℚ))))) * 1 * (111 / 100)
    have hX : 100 * (1 - d / (6 * (56 : ℚ))) ≤ 550 / 7 := by
      have hdiv : (72 : ℚ) / 336 ≤ d / 336 :=
        (div_le_div_right (by norm_num : (0 : ℚ) < 336)).mpr hlb
      have h6 : (6 : ℚ) * 56 = 336 := by norm_num
      rw [h6]
      linarith
    have hraw_le : qmax 0 (100 * (1 - d / (6 * (56 : ℚ)))) ≤ 550 / 7 := by
      unfold qmax
      split
      · exact hX
      · norm_num
    have hscaled : scaled_similarity (qmax 0 (100 * (1 - d / (6 * (56 : ℚ))))) ≤
        1700 / 21 := by
      unfold scaled_similarity
      split
      · norm_num
      · split
        · rename_i h30 h90
          exfalso
          linarith
        · rename_i h30 h90
          push_neg at h30 h90
          linarith
    push_neg
    linarith

theorem dtwStep_lookup_stable (x y : List ℚ) (D : DtwTable) (c key : ℕ × ℕ)
    (h : c ≠ key) : dtwLookup (dtwStep x y D c) key = dtwLookup D key := by
  unfold dtwStep
  dsimp only
  split
  · rfl
  · show dtwLookup (((c.1, c.2), _) :: D) key = dtwLookup D key
    unfold dtwLookup
    rw [List.find?_cons_of_neg]
    simp only [Bool.and_eq_true, beq_iff_eq, not_and]
    intro h1 h2
    apply h
    rcases c with ⟨a, b⟩
    rcases key with ⟨p, q⟩
    simp only at h1 h2
    rw [h1, h2]

theorem foldl_lookup_stable (x y : List ℚ) :
    ∀ (cells : List (ℕ × ℕ)) (D : DtwTable) (key : ℕ × ℕ),
      (∀ c ∈ cells, c ≠ key) →
      dtwLookup (cells.foldl (dtwStep x y) D) key = dtwLookup D key := by
  intro cells
  induction cells with
  | nil => intro D key _; rfl
  | cons c cs ih =>
    intro D key hk
    rw [List.foldl_cons, ih _ key (fun c' hc' => hk c' (List.mem_cons_of_mem _ hc')),
      dtwStep_lookup_stable x y D c key (hk c (List.mem_cons_self _ _))]

theorem dtwStep_self_lookup (x y : List ℚ) (D : DtwTable) (c : ℕ × ℕ)
    (u : ℚ × ℕ × ℕ) (hdiag : dtwLookup D (c.1 - 1, c.2 - 1) = some u) :
    ∃ w pr, dtwLookup (dtwStep x y D c) c = some (w, pr) ∧
      w ≤ u.1 + circular_semitone_distance (x.getD (c.1 - 1) 0) (y.getD (c.2 - 1) 0) := by
  unfold dtwStep
  dsimp only
  rw [hdiag]
  simp only [Option.map_some']
  set b3 := min3
    ((dtwLookup D (c.1 - 1, c.2)).map
      (fun v => v.1 + circular_semitone_distance (x.getD (c.1 - 1) 0) (y.getD (c.2 - 1) 0)),
      (c.1 - 1, c.2))
    ((dtwLookup D (c.1, c.2 - 1)).map
      (fun v => v.1 + circular_semitone_distance (x.getD (c.1 - 1) 0) (y.getD (c.2 - 1) 0)),
      (c.1, c.2 - 1))
    ((some (u.1 + circular_semitone_distance (x.getD (c.1 - 1) 0) (y.getD (c.2 - 1) 0)) :
        Option ℚ),
      (c.1 - 1, c.2 - 1)) with hb3
  have h3 : optLE b3.1
      (some (u.1 + circular_semitone_distance (x.getD (c.1 - 1) 0) (y.getD (c.2 - 1) 0))) =
      true := by
    rw [hb3]
    exact min3_le_third _ _ _
  rcases hbest : b3.1 with _ | v
  · rw [hbest] at h3
    simp [optLE] at h3
  · rw [hbest] at h3
    simp only [optLE, decide_eq_true_eq] at h3
    refine ⟨v, b3.2, ?_, h3⟩
    show dtwLookup (((c.1, c.2), (v, b3.2)) :: D) c = some (v, b3.2)
    unfold dtwLookup
    rw [List.find?_cons_of_pos]
    · rfl
    · simp

theorem dtwFull_self_diag (x : List ℚ) :
    ∀ k, k ≤ x.length → ∃ w pr,
      dtwLookup
        (((List.range k).flatMap fun i =>
            (List.range x.length).map fun j => (i + 1, j + 1)).foldl
          (dtwStep x x) [((0, 0), (0, 0, 0))]) (k, k) = some (w, pr) ∧ w ≤ 0 := by
  intro k
  induction k with
  | zero =>
    intro _
    exact ⟨0, (0, 0), rfl, le_refl 0⟩
  | succ k ih =>
    intro hk1
    obtain ⟨w, pr, hlk, hw⟩ := ih (by omega)
    have hsplit : ((List.range (k + 1)).flatMap fun i =>
        (List.range x.length).map fun j => (i + 1, j + 1)) =
      (((List.range k).flatMap fun i =>
        (List.range x.length).map fun j => (i + 1, j + 1)) ++
        ((List.range x.length).map fun j => (k + 1, j + 1))) := by
      rw [List.range_succ, List.flatMap_append]
      simp
    have hrow : ((List.range x.length).map fun j => (k + 1, j + 1)) =
        (((List.range' 0 k).map fun j => (k + 1, j + 1)) ++
          ((k + 1, k + 1) ::
            ((List.range' (k + 1) (x.length - k - 1)).map fun j => (k + 1, j + 1)))) := by
      have h1 : List.range x.length = List.range' 0 k ++ List.range' k (x.length - k) := by
        conv_lhs => rw [List.range_eq_range',
          show x.length = (x.length - k) + k from by omega]
        rw [← List.range'_append_1]
        norm_num
      have h2 : List.range' k (x.length - k) =
          k :: List.range' (k + 1) (x.length - k - 1) := by
        conv_lhs => rw [show x.length - k = (x.length - k - 1) + 1 from by omega,
          List.range'_succ]
      rw [h1, h2, List.map_append, List.map_cons]
    rw [hsplit, List.foldl_append, hrow]
    rw [List.foldl_append, List.foldl_cons]
    have hstable1 : dtwLookup
        ((((List.range' 0 k).map fun j => (k + 1, j + 1))).foldl (dtwStep x x)
          (((List.range k).flatMap fun i =>
            (List.range x.length).map fun j => (i + 1, j + 1)).foldl
            (dtwStep x x) [((0, 0), (0, 0, 0))])) (k, k) = some (w, pr) := by
      rw [foldl_lookup_stable]
      · exact hlk
      · intro c hc
        obtain ⟨j, _, hj⟩ := List.mem_map.mp hc
        rw [← hj]
        intro hcontra
        have := congrArg Prod.fst hcontra
        simp at this
    obtain ⟨w2, pr2, hlk2, hw2⟩ := dtwStep_self_lookup x x _ (k + 1, k + 1) (w, pr)
      (by simpa using hstable1)
    refine ⟨w2, pr2, ?_, ?_⟩
    · rw [foldl_lookup_stable]
      · exact hlk2
      · intro c hc
        obtain ⟨j, hjmem, hj⟩ := List.mem_map.mp hc
        rw [← hj]
        intro hcontra
        have h1 := congrArg Prod.snd hcontra
        simp at h1
        have := List.mem_range'_1.mp hjmem
        omega
    · have hdt : circular_semitone_distance (x.getD ((k + 1, k + 1).1 - 1) 0)
          (x.getD ((k + 1, k + 1).2 - 1) 0) = 0 := by
        exact circular_semitone_distance_self _
      rw [hdt] at hw2
      simpa using le_trans hw2 (by simpa using hw)

theorem dtwFull_self_le (x : List ℚ) :
    ∃ w, (dtwFull x x).1 = some w ∧ w ≤ 0 := by
  obtain ⟨w, pr, hlk, hw⟩ := dtwFull_self_diag x x.length (le_refl _)
  refine ⟨w, ?_, hw⟩
  unfold dtwFull dtwWindowed
  dsimp only
  rw [dtwRun_eq_foldl _ _ _ _ (by simp)]
  have hcells : (((List.range x.length).flatMap fun i =>
      (List.range x.length).map fun j => (i, j)).map fun c => (c.1 + 1, c.2 + 1)) =
    ((List.range x.length).flatMap fun i =>
      (List.range x.length).map fun j => (i + 1, j + 1)) := by
    rw [List.map_flatMap]
    congr 1
    funext i
    rw [List.map_map]
    rfl
  rw [hcells, hlk]
  rfl

theorem truncTo_self (c : List ℚ) : truncTo c c = c := by
  unfold truncTo
  rw [min_self, List.take_length]

theorem validPairs_self (c : List ℚ) :
    validPairs c c = (c.filter voiced).map fun a => (a, a) := by
  unfold validPairs
  induction c with
  | nil => rfl
  | cons a t ih =>
    rw [List.zip_cons_cons, List.filter_cons, List.filter_cons]
    by_cases hv : voiced a
    · simp only [hv, Bool.and_self, if_pos]
      rw [List.map_cons, ih]
    · simp only [hv, Bool.and_self, if_neg]
      exact ih

theorem validPairs_self_length (c : List ℚ) :
    (validPairs c c).length = voicedCount c := by
  rw [validPairs_self, List.length_map]
  rfl

theorem overlap_fraction_self (c : List ℚ) (h : 0 < voicedCount c) :
    overlap_fraction c c = 1 := by
  unfold overlap_fraction
  rw [if_pos h, validPairs_self_length]
  have hne : ((voicedCount c : ℚ)) ≠ 0 := by
    simp only [ne_eq, Nat.cast_eq_zero]
    omega
  field_simp

theorem dtwInput1_self (c : List ℚ) (h : voicedCount c ≤ 1000) :
    dtwInput1 c c = c.filter voiced := by
  unfold dtwInput1 downsample
  dsimp only
  rw [truncTo_self, validPairs_self, List.map_map]
  rw [if_neg (by
    rw [List.length_map]
    show ¬ 1000 < voicedCount c
    omega)]
  show (c.filter voiced).map (fun a => a) = c.filter voiced
  simp

theorem dtwInput2_self (c : List ℚ) (h : voicedCount c ≤ 1000) :
    dtwInput2 c c = c.filter voiced := by
  unfold dtwInput2 downsample
  dsimp only
  rw [truncTo_self, validPairs_self, List.map_map]
  rw [if_neg (by
    rw [List.length_map]
    show ¬ 1000 < voicedCount c
    omega)]
  show (c.filter voiced).map (fun a => a) = c.filter voiced
  simp

/-- C5 (amended): for every curve with at least 2 and fewer than 12 voiced
frames, scoring the curve against itself exceeds 90 — below the
`min_time_size = radius + 2` threshold fastdtw runs an exact full-window
DTW, whose diagonal gives a self-distance at most 0, so the score is
exactly 100 · 1 · 1.11 = 111. -/
theorem self_similarity_short_curves (c : List ℚ)
    (h2 : 2 ≤ voicedCount c) (h12 : voicedCount c < 12) :
    90 < calculate_curve_similarity c c := by
  have hlen1 : (validPairs (truncTo c c) (truncTo c c)).length = voicedCount c := by
    rw [truncTo_self, validPairs_self_length]
  have heq := calc_sim_shape c c
    (by
      intro hcon
      rw [List.isEmpty_iff] at hcon
      rw [hcon] at hlen1
      simp at hlen1
      omega)
    (by
      push_neg
      constructor <;> rw [List.length_map, hlen1] <;> omega)
  rw [heq, dtwInput1_self c (by omega), dtwInput2_self c (by omega)]
  have hbase : fastdtw 10 (c.filter voiced) (c.filter voiced) =
      dtwFull (c.filter voiced) (c.filter voiced) := by
    unfold fastdtw
    rw [fastdtwFuel]
    rw [if_pos]
    left
    show (c.filter voiced).length < 10 + 2
    show voicedCount c < 12
    omega
  obtain ⟨w, hfd, hw⟩ := dtwFull_self_le (c.filter voiced)
  rw [hbase, hfd]
  rw [truncTo_self, overlap_fraction_self c (by omega)]
  have hLpos : (2 : ℚ) ≤ ((c.filter voiced).length : ℚ) := by
    have : (2 : ℕ) ≤ (c.filter voiced).length := h2
    exact_mod_cast this
  have hdivle : w / (6 * ((c.filter voiced).length : ℚ)) ≤ 0 := by
    apply div_nonpos_of_nonpos_of_nonneg hw
    linarith
  have hX : (100 : ℚ) ≤ 100 * (1 - w / (6 * ((c.filter voiced).length : ℚ))) := by
    linarith
  have hqmax : qmax 0 (100 * (1 - w / (6 * ((c.filter voiced).length : ℚ)))) =
      100 * (1 - w / (6 * ((c.filter voiced).length : ℚ))) := by
    unfold qmax
    rw [if_pos (by linarith)]
  show 90 < scaled_similarity
      (qmax 0 (100 * (1 - w / (6 * ((c.filter voiced).length : ℚ))))) * 1 * (111 / 100)
  rw [hqmax]
  have hscaled : scaled_similarity (100 * (1 - w / (6 * ((c.filter voiced).length : ℚ)))) =
      100 := by
    unfold scaled_similarity
    rw [if_neg (by linarith), if_pos (by linarith)]
  rw [hscaled]
  norm_num

theorem self_similarity_short_curves_witness :
    90 < calculate_curve_similarity [0, 63, 64] [0, 63, 64] :=
  self_similarity_short_curves [0, 63, 64] (by with_unfolding_all decide)
    (by with_unfolding_all decide)
